import Mathlib

/-!
Verification of the bytecode-to-source coverage attribution engine
(SourceMap / Sources / Trace / Coverage) against its natural-language
specification.  JavaScript strings are modelled as `List Char`, JS numbers
appearing in parsed source maps as `Option Int` (`none` plays the role of
`NaN`), JS objects as insertion-ordered association lists, and fallible
JS code (exceptions) as `Option`-valued functions.
-/

set_option maxRecDepth 10000

/-! ## JS-style association lists (objects) -/

/-- Lookup of the value stored under a key (first occurrence). -/
def alookup {α β : Type} [DecidableEq α] : List (α × β) → α → Option β
  | [], _ => none
  | (k, v) :: rest, key => if key = k then some v else alookup rest key

/-- JS object assignment `m[k] = v`: overwrite in place if the key exists,
otherwise append at the end (insertion order preserved). -/
def aset {α β : Type} [DecidableEq α] : List (α × β) → α → β → List (α × β)
  | [], key, val => [(key, val)]
  | (k, v) :: rest, key, val =>
    if key = k then (k, val) :: rest else (k, v) :: aset rest key val

/-! ## JS helpers: strings, hex, parseInt -/

/-- JS number that may be `NaN` (`none`). -/
abbrev JsNum := Option Int

/-- `NaN`-propagating comparison `x > 0` (false when `NaN`). -/
def jGt0 : JsNum → Bool
  | some v => v > 0
  | none => false

/-- Hex nibble value of a character, `none` for non-hex characters. -/
def hexVal (c : Char) : Option Nat :=
  if '0' ≤ c ∧ c ≤ '9' then some (c.toNat - '0'.toNat)
  else if 'a' ≤ c ∧ c ≤ 'f' then some (c.toNat - 'a'.toNat + 10)
  else if 'A' ≤ c ∧ c ≤ 'F' then some (c.toNat - 'A'.toNat + 10)
  else none

/-- `Buffer.from(s, 'hex')`: decode hex pairs, truncating at the first
invalid pair and dropping a trailing odd nibble. -/
def hexDecode : List Char → List Nat
  | c1 :: c2 :: rest =>
    match hexVal c1, hexVal c2 with
    | some a, some b => (16 * a + b) :: hexDecode rest
    | _, _ => []
  | _ => []

/-- `BigInt('0x' + s)` as a natural number; `none` models the exception
thrown for an empty or non-hex string (including the `'0xundefined'` case). -/
def parseUintJS : Option (List Char) → Option Nat
  | none => none
  | some [] => none
  | some cs => go cs 0
where
  go : List Char → Nat → Option Nat
    | [], acc => some acc
    | c :: rest, acc =>
      match hexVal c with
      | some v => go rest (16 * acc + v)
      | none => none

/-- JS `parseInt` on a field of a compiler source map: optional sign followed
by decimal digits (leading whitespace skipped, trailing junk ignored);
`none` models `NaN`. -/
def parseIntJS (cs : List Char) : JsNum :=
  match cs.dropWhile (fun c => c = ' ') with
  | '-' :: rest => (digits rest).map (fun n => -(n : Int))
  | '+' :: rest => (digits rest).map (fun n => (n : Int))
  | rest => (digits rest).map (fun n => (n : Int))
where
  go : List Char → Nat → Nat
    | [], acc => acc
    | c :: rest, acc =>
      if '0' ≤ c ∧ c ≤ '9' then go rest (10 * acc + (c.toNat - '0'.toNat)) else acc
  digits : List Char → Option Nat
    | [] => none
    | c :: rest =>
      if '0' ≤ c ∧ c ≤ '9' then some (go rest (c.toNat - '0'.toNat)) else none

/-- `s.split(sep)` on a single-character separator; note `''.split(c)`
yields `['']`, exactly as in JS. -/
def splitOnC (sep : Char) : List Char → List (List Char)
  | [] => [[]]
  | c :: rest =>
    let r := splitOnC sep rest
    if c = sep then [] :: r
    else
      match r with
      | [] => [[c]]
      | piece :: more => (c :: piece) :: more

/-- `s.toLowerCase()`. -/
def lowerL (cs : List Char) : List Char := cs.map Char.toLower

/-- `s.startsWith(c)` for a single character. -/
def startsC (c : Char) : List Char → Bool
  | [] => false
  | c0 :: _ => c0 = c

/-- `s.includes(c)` for a single character. -/
def containsC (c : Char) (cs : List Char) : Bool := cs.any (fun x => x = c)

/-! ## SourceMap -/

/-- One retained source-map entry: `start`/`length`/`index` fields, each a JS
number (possibly `NaN` when a field did not parse). -/
structure SourceRange where
  start : JsNum
  length : JsNum
  index : JsNum
deriving DecidableEq, Repr, Inhabited

structure CompilerSource where
  path : List Char
  content : List Char
  id : Int
deriving DecidableEq, Repr, Inhabited

structure SourceMapT where
  fqdn : List Char
  bytecode : List Char
  pcToInstructionIndices : List (Nat × Nat)
  instructionIndexToRanges : List (Nat × SourceRange)
  compilerSources : List CompilerSource
deriving DecidableEq, Repr, Inhabited

/-- Instruction length used by the byte walker: `opcode - 0x60 + 2` for
PUSH1..PUSH32 (0x60..0x7f), otherwise 1; an out-of-bounds read
(`bytes[pc]` is `undefined`, so both comparisons are false) yields 1. -/
def instructionLength : Option Nat → Nat
  | some b => if 0x60 ≤ b ∧ b ≤ 0x7f then b - 0x60 + 2 else 1
  | none => 1

/-- The walker loop of `buildPCToInstructionIndices`.  `fuel` bounds the
iteration count; since `pc` strictly increases each step, `hexLen` fuel is
always enough, so this equals the JS `for (pc = 0; pc < bytecode.length;)`
loop, whose bound `bytecode.length` is the HEX-STRING length. -/
def buildLoop (bytes : List Nat) (hexLen : Nat) : Nat → Nat → Nat → List (Nat × Nat)
  | 0, _, _ => []
  | fuel + 1, pc, i =>
    if pc < hexLen then
      (pc, i) :: buildLoop bytes hexLen fuel (pc + instructionLength (bytes.get? pc)) (i + 1)
    else []

/-- `SourceMap.buildPCToInstructionIndices`: walk the decoded bytes recording
each instruction-start `pc`, but (as in the source) loop while
`pc < bytecode.length` where `bytecode` is the hex string. -/
def buildPCToInstructionIndices (bytecode : List Char) : List (Nat × Nat) :=
  buildLoop (hexDecode bytecode) bytecode.length bytecode.length 0 0

/-- One step of the source-map decompression state machine: an empty (or
missing, hence falsy) field inherits the previous value. -/
def smStep (state : JsNum × JsNum × JsNum) (entry : List Char) :
    JsNum × JsNum × JsNum :=
  let fields := splitOnC ':' entry
  let fld := fun (i : Nat) => (fields.get? i).getD []
  let upd := fun (old : JsNum) (f : List Char) => if f = [] then old else parseIntJS f
  (upd state.1 (fld 0), upd state.2.1 (fld 1), upd state.2.2 (fld 2))

/-- The fold of `SourceMap.parse` over the `;`-separated entries, producing
the `instructionIndexToRanges` table keyed by consecutive indices. -/
def smRanges (state : JsNum × JsNum × JsNum) (index : Nat) :
    List (List Char) → List (Nat × SourceRange)
  | [] => []
  | entry :: rest =>
    let st := smStep state entry
    (index, ⟨st.1, st.2.1, st.2.2⟩) :: smRanges st (index + 1) rest

/-- `SourceMap.parse`. -/
def SourceMapT.parse (objectHex : List Char) (sourceMap : List Char)
    (sources : List CompilerSource) (fqdn : List Char) : SourceMapT :=
  { fqdn := fqdn
    bytecode := objectHex
    pcToInstructionIndices := buildPCToInstructionIndices objectHex
    instructionIndexToRanges := smRanges (some 0, some 0, some 0) 0 (splitOnC ';' sourceMap)
    compilerSources := sources }

/-- `pcToRange`: compose the two lookups; a missing entry throws. -/
def SourceMapT.pcToRange (sm : SourceMapT) (pc : Nat) : Option SourceRange :=
  match alookup sm.pcToInstructionIndices pc with
  | none => none
  | some i => alookup sm.instructionIndexToRanges i

/-! ## Sources -/

structure Sources where
  addressToBytecodes : List (List Char × List Char)
  bytecodeToSourceMaps : List (List Char × SourceMapT)
  bytecodeAndIndexToPath : List (List Char × List (Int × List Char))
  pathToCompilerSources : List (List Char × CompilerSource)
  unique : Nat
deriving DecidableEq, Repr

/-- The disambiguated path `` `${path}:${i}` ``. -/
def disPath (path : List Char) (i : Nat) : List Char :=
  path ++ ':' :: (toString i).data

/-- Working state of `indexBytecodeToSourceMap` while it folds over the
compiler sources of one bytecode. -/
structure IdxSt where
  si2p : List (Int × List Char)
  p2cs : List (List Char × CompilerSource)
  unique : Nat
deriving DecidableEq, Repr

/-- The `for (let i = 0; i < this.unique; i++)` search over previously
disambiguated paths.  The JS code dereferences `maybeExisting.input.content`
without a presence check, so a missing probe entry throws (`none`). -/
def searchDis (p2cs : List (List Char × CompilerSource)) (base content : List Char) :
    List Nat → Option (Option (List Char))
  | [] => some none
  | i :: rest =>
    match alookup p2cs (disPath base i) with
    | none => none
    | some e =>
      if e.content = content then some (some (disPath base i))
      else searchDis p2cs base content rest

/-- Indexing of a single `CompilerSource` (the body of the `for..of` loop in
`indexBytecodeToSourceMap`). -/
def indexSrc (st : IdxSt) (src : CompilerSource) : Option IdxSt :=
  match alookup st.p2cs src.path with
  | none =>
    some { st with si2p := aset st.si2p src.id src.path,
                   p2cs := aset st.p2cs src.path src }
  | some existing =>
    if existing.content = src.content then
      some { st with si2p := aset st.si2p src.id src.path }
    else
      match searchDis st.p2cs src.path src.content (List.range st.unique) with
      | none => none
      | some (some p) => some { st with si2p := aset st.si2p src.id p }
      | some none =>
        let p := disPath src.path st.unique
        some { si2p := aset st.si2p src.id p,
               p2cs := aset st.p2cs p { src with path := p },
               unique := st.unique + 1 }

def indexSrcs : IdxSt → List CompilerSource → Option IdxSt
  | st, [] => some st
  | st, src :: rest =>
    match indexSrc st src with
    | none => none
    | some st' => indexSrcs st' rest

/-- `Sources.indexBytecodeToSourceMap`. -/
def indexBytecode (S : Sources) (bytecode : List Char) : Option Sources :=
  match alookup S.bytecodeToSourceMaps bytecode with
  | none => none
  | some sm =>
    let st0 : IdxSt :=
      { si2p := (alookup S.bytecodeAndIndexToPath bytecode).getD [],
        p2cs := S.pathToCompilerSources,
        unique := S.unique }
    match indexSrcs st0 sm.compilerSources with
    | none => none
    | some st =>
      some { S with bytecodeAndIndexToPath := aset S.bytecodeAndIndexToPath bytecode st.si2p,
                    pathToCompilerSources := st.p2cs,
                    unique := st.unique }

def indexAll : Sources → List (List Char) → Option Sources
  | S, [] => some S
  | S, b :: rest =>
    match indexBytecode S b with
    | none => none
    | some S' => indexAll S' rest

/-- The `Sources` constructor: start from the given bytecode-to-SourceMap
map and index every bytecode in it. -/
def mkSources (b2s : List (List Char × SourceMapT)) : Option Sources :=
  indexAll
    { addressToBytecodes := [], bytecodeToSourceMaps := b2s,
      bytecodeAndIndexToPath := [], pathToCompilerSources := [], unique := 0 }
    (b2s.map (fun p => p.1))

/-- `insertAndIndexBytecodeAndSourceMap`. -/
def insertAndIndex (S : Sources) (bytecode : List Char) (sm : SourceMapT) : Option Sources :=
  indexBytecode { S with bytecodeToSourceMaps := aset S.bytecodeToSourceMaps bytecode sm } bytecode

/-- `loadAddresses`: lowercase every key before merging. -/
def loadAddresses (S : Sources) (m : List (List Char × List Char)) : Sources :=
  { S with addressToBytecodes :=
      m.foldl (fun acc p => aset acc (lowerL p.1) p.2) S.addressToBytecodes }

/-- `addressToBytecode`: `address && address.toLowerCase()` is `undefined`
for a missing address, and a JS object lookup coerces that key to the
string `'undefined'`.  A missing binding throws (`none`). -/
def addressToBytecode (S : Sources) (address : Option (List Char)) : Option (List Char) :=
  alookup S.addressToBytecodes
    (match address with
     | some a => lowerL a
     | none => "undefined".data)

/-- The same-length fuzzy rule: every hex position agrees or the known
bytecode has a `'0'` (an immutable slot the compiler left zeroed). -/
def sameLenMismatch (b k : List Char) : Bool :=
  (List.zip b k).any (fun p => p.1 ≠ p.2 ∧ p.2 ≠ '0')

/-- One known-bytecode candidate check from the fuzzy-match scan. -/
def fuzzyHit (b k : List Char) : Bool :=
  if b.length = k.length then ¬ sameLenMismatch b k
  else if b.length > k.length ∧ k.length > 42 then b.take k.length = k
  else false

/-- The `for (const knownBytecode in b2s)` scan: first matching entry wins. -/
def scanFuzzy (b : List Char) : List (List Char × SourceMapT) → Option (List Char × SourceMapT)
  | [] => none
  | (k, sm) :: rest => if fuzzyHit b k then some (k, sm) else scanFuzzy b rest

/-- `Sources.bytecodeToSourceMap`: exact lookup first, then the fuzzy scan
with caching; `none` models `NoSourceMap` (and any exception raised while
re-indexing the cached bytecode). -/
def bytecodeToSourceMap (S : Sources) (b : List Char) : Option (SourceMapT × Sources) :=
  match alookup S.bytecodeToSourceMaps b with
  | some sm => some (sm, S)
  | none =>
    match scanFuzzy b S.bytecodeToSourceMaps with
    | some (_, sm) =>
      match insertAndIndex S b sm with
      | none => none
      | some S' => some (sm, S')
    | none => none

/-- `compilerSourcePath`, reading only the `bytecodeAndIndexToPath` table;
both a missing bytecode row and a missing index entry throw.  The `NaN`
index (key coerced to the string `'NaN'`) never hits an integer key. -/
def compilerSourcePathF (bi2p : List (List Char × List (Int × List Char)))
    (bytecode : List Char) (index : JsNum) : Option (List Char) :=
  match alookup bi2p bytecode with
  | none => none
  | some tbl =>
    match index with
    | some v => alookup tbl v
    | none => none

/-! ## Trace -/

structure StructLog where
  depth : Nat
  memory : List (List Char)
  op : List Char
  pc : Nat
  stack : List (List Char)
deriving DecidableEq, Repr

/-- The tag attached to an emitted log: exactly one of `address` (possibly
the `undefined` address of a creation frame) or `bytecode`. -/
inductive Tag where
  | address (a : Option (List Char))
  | bytecode (b : List Char)
deriving DecidableEq, Repr

structure TaggedLog where
  log : StructLog
  tag : Tag
deriving DecidableEq, Repr

/-- `log.address` as seen by a JS destructuring: `undefined` unless the log
is address-tagged with a present address. -/
def TaggedLog.addr? (t : TaggedLog) : Option (List Char) :=
  match t.tag with
  | .address a => a
  | .bytecode _ => none

structure TraceableTxData where
  toAddr : Option (List Char)
  input : Option (List Char)
deriving DecidableEq, Repr

structure TraceInfo where
  txData : TraceableTxData
  structLogs : List StructLog
deriving DecidableEq, Repr

/-- A reconstructed call-stack frame: `{address}` for a called contract,
`{bytecode}` for a contract still executing its constructor. -/
inductive Frame where
  | addr (a : Option (List Char))
  | code (b : List Char)
deriving DecidableEq, Repr

/-- `stack[stack.length - offset - 1]`. -/
def nthStackBack (stack : List (List Char)) (offset : Nat) : Option (List Char) :=
  stack.get? (stack.length - offset - 1)

/-- `parseAddress`: `'0x' + arg?.slice(24)`; for a missing argument the JS
expression evaluates to the string `'0xundefined'`. -/
def parseAddress (arg : Option (List Char)) : List Char :=
  match arg with
  | some a => "0x".data ++ a.drop 24
  | none => "0xundefined".data

/-- The tag the generator emits for the current top frame: the bytecode when
`top.bytecode` is truthy (created by CREATE/CREATE2 with non-empty code),
otherwise the frame's address (`undefined` for an empty-bytecode frame). -/
def tagOfFrame : Frame → Tag
  | .addr a => .address a
  | .code b => if b = [] then .address none else .bytecode b

def callOps : List (List Char) :=
  ["CALL".data, "CALLCODE".data, "DELEGATECALL".data, "STATICCALL".data]

def createOps : List (List Char) := ["CREATE".data, "CREATE2".data]

/-- One iteration of `followInfo`: emit a tagged log for the current struct
log and update the frame stack; `none` models a thrown `assume` violation,
an empty frame stack, or a `BigInt` parse failure on CREATE arguments. -/
def followStep (frames : List Frame) (log : StructLog) (next : Option StructLog) :
    Option (TaggedLog × List Frame) :=
  match frames.head? with
  | none => none
  | some top =>
    let t : TaggedLog := ⟨log, tagOfFrame top⟩
    let postDepth := (next.getD log).depth
    if log.op ∈ callOps then
      if postDepth = log.depth + 1 then
        some (t, Frame.addr (some (parseAddress (nthStackBack log.stack 1))) :: frames)
      else
        some (t, frames)
    else if log.op ∈ createOps then
      if postDepth = log.depth + 1 then
        match parseUintJS (nthStackBack log.stack 1), parseUintJS (nthStackBack log.stack 2) with
        | some offset, some length =>
          let memory := log.memory.flatten
          let bytecode := (memory.drop (2 * offset)).take (2 * (offset + length) - 2 * offset)
          some (t, Frame.code bytecode :: frames)
        | _, _ => none
      else none
    else
      if postDepth ≤ log.depth then
        some (t, if postDepth < log.depth then frames.tail else frames)
      else none

def followLoop (frames : List Frame) : List StructLog → Option (List TaggedLog)
  | [] => some []
  | log :: rest =>
    match followStep frames log rest.head? with
    | none => none
    | some (t, frames') =>
      match followLoop frames' rest with
      | none => none
      | some ts => some (t :: ts)

/-- `Trace.followInfo`: walk the struct logs with an initial frame holding
the transaction's `to` address. -/
def followInfo (info : TraceInfo) : Option (List TaggedLog) :=
  followLoop [Frame.addr info.txData.toAddr] info.structLogs

/-- `Trace.buildAddressToBytecodes`: the provider's `eth_getCode` answer is
abstracted as a function from address to `'0x'`-prefixed code. -/
def buildAddressToBytecodes (getCode : List Char → List Char) (info : TraceInfo) :
    List TaggedLog → List (List Char × List Char) → Option (List (List Char × List Char))
  | [], acc => some acc
  | t :: rest, acc =>
    match t.addr? with
    | none =>
      match info.txData.input with
      | none => none
      | some inp => buildAddressToBytecodes getCode info rest (aset acc ("null".data) (inp.drop 2))
    | some address =>
      match alookup acc address with
      | some existing =>
        if existing = [] then
          buildAddressToBytecodes getCode info rest (aset acc address ((getCode address).drop 2))
        else buildAddressToBytecodes getCode info rest acc
      | none =>
        buildAddressToBytecodes getCode info rest (aset acc address ((getCode address).drop 2))

/-! ## Coverage: features and per-path tables -/

/-- A coverage feature installed at a source byte: a line, one alternative of
a branch, a function, or a statement. -/
inductive Feature where
  | l (line : Nat)
  | b (id alt : Nat)
  | f (id : Nat)
  | s (id : Nat)
deriving DecidableEq, Repr

structure SourcePosition where
  line : Nat
  column : Nat
deriving DecidableEq, Repr

structure SourceLocation where
  first : SourcePosition
  last : SourcePosition
deriving DecidableEq, Repr

structure BranchEntry where
  line : Nat
  btype : List Char
  locations : List SourceLocation
deriving DecidableEq, Repr

structure FnEntry where
  name : List Char
  line : Nat
  loc : SourceLocation
  skip : Bool
deriving DecidableEq, Repr

structure StmtEntry where
  loc : SourceLocation
  skip : Bool
deriving DecidableEq, Repr

/-- The per-path `SyntaxTable` of the coverage engine. -/
structure SynTable where
  features : List (List Feature)
  lines : List (List Char)
  branchMap : List (Nat × BranchEntry)
  fnMap : List (Nat × FnEntry)
  statementMap : List (Nat × StmtEntry)
deriving DecidableEq, Repr

/-- The `pathToSyntax` precomputation held by a `Coverage` instance (its
`Sources` reference is threaded explicitly through the report functions). -/
structure CovTables where
  pathToSyn : List (List Char × SynTable)
deriving DecidableEq, Repr

/-- A JS counter cell: `some n` is a number, `none` is the `NaN` produced by
incrementing a missing key. -/
abbrev Counter := Option Nat

structure PathStats where
  path : List Char
  branchMap : List (Nat × BranchEntry)
  fnMap : List (Nat × FnEntry)
  statementMap : List (Nat × StmtEntry)
  l : List (Nat × Counter)
  b : List (Nat × List (Nat × Counter))
  f : List (Nat × Counter)
  s : List (Nat × Counter)
deriving DecidableEq, Repr, Inhabited

abbrev Report := List (List Char × PathStats)

/-- `Coverage.freshReport` for one path: zero-initialised counters shaped by
the syntax maps (`l` an array of `lines.length` zeros, `b` one zero per
branch alternative, `f`/`s` one zero per map entry). -/
def mkStats (path : List Char) (syn : SynTable) : PathStats :=
  { path := path
    branchMap := syn.branchMap
    fnMap := syn.fnMap
    statementMap := syn.statementMap
    l := (List.range syn.lines.length).map (fun i => (i, some 0))
    b := syn.branchMap.map (fun p => (p.1, (List.range p.2.locations.length).map (fun j => (j, some 0))))
    f := syn.fnMap.map (fun p => (p.1, some 0))
    s := syn.statementMap.map (fun p => (p.1, some 0)) }

def freshReport (cov : CovTables) : Report :=
  cov.pathToSyn.map (fun p => (p.1, mkStats p.1 p.2))

/-! ## Coverage: accumulating hits -/

/-- A single counter increment recorded while walking one opcode's source
range: the kind, the path, and the counter key. -/
inductive IncKey where
  | l (path : List Char) (line : Nat)
  | b (path : List Char) (id alt : Nat)
  | f (path : List Char) (id : Nat)
  | s (path : List Char) (id : Nat)
deriving DecidableEq, Repr

def IncKey.path : IncKey → List Char
  | .l p _ => p
  | .b p _ _ => p
  | .f p _ => p
  | .s p _ => p

/-- Per-opcode dedup state: the last line counted, whether a branch was
counted, and the value of the JS `fn` variable (`none` until assigned).
Note the JS guard is `!fn`, which is also true when `fn` holds the number
0, so the guard is modelled as `fn?.getD 0 = 0`. -/
structure WalkSt where
  line? : Option Nat
  branch? : Option (Nat × Nat)
  fn? : Option Nat
deriving DecidableEq, Repr

/-- Process the feature list of one source byte, in order, applying the
per-opcode dedup rules and emitting the increments. -/
def featsIncs (op path : List Char) : List Feature → WalkSt → List IncKey × WalkSt
  | [], st => ([], st)
  | feat :: rest, st =>
    match feat with
    | .l n =>
      if st.line? ≠ some n then
        let r := featsIncs op path rest { st with line? := some n }
        (IncKey.l path n :: r.1, r.2)
      else featsIncs op path rest st
    | .b id alt =>
      match st.branch? with
      | none =>
        let r := featsIncs op path rest { st with branch? := some (id, alt) }
        (IncKey.b path id alt :: r.1, r.2)
      | some _ => featsIncs op path rest st
    | .f id =>
      if op = "JUMPDEST".data then
        if st.fn?.getD 0 = 0 then
          let r := featsIncs op path rest { st with fn? := some id }
          (IncKey.f path id :: r.1, r.2)
        else featsIncs op path rest st
      else featsIncs op path rest st
    | .s id =>
      let r := featsIncs op path rest st
      (IncKey.s path id :: r.1, r.2)

/-- `syntax.features[i]` with a JS (possibly negative) index. -/
def featGet (features : List (List Feature)) (i : Int) : Option (List Feature) :=
  match i with
  | .ofNat n => features.get? n
  | .negSucc _ => none

/-- The byte loop of `Coverage.report` for one opcode: `n` iterations left,
current index `i`.  A missing feature list breaks out for generated
(`#`-prefixed) paths and throws otherwise; the whole loop throws when the
path has no syntax table (`syntax.features` on `undefined`). -/
def walkBytes (syn? : Option SynTable) (op path : List Char) :
    Nat → Int → WalkSt → Option (List IncKey)
  | 0, _, _ => some []
  | n + 1, i, st =>
    match syn? with
    | none => none
    | some syn =>
      match featGet syn.features i with
      | none => if startsC '#' path then some [] else none
      | some fs =>
        let r := featsIncs op path fs st
        match walkBytes syn? op path n (i + 1) r.2 with
        | none => none
        | some more => some (r.1 ++ more)

/-- The increments contributed by one tagged log once its source map is
known: look up the opcode's range; when its length is positive, resolve the
path and walk the byte range (`NaN` start makes the JS loop run zero
times). -/
def incsOf (cov : CovTables) (bi2p : List (List Char × List (Int × List Char)))
    (sm : SourceMapT) (log : StructLog) : Option (List IncKey) :=
  match sm.pcToRange log.pc with
  | none => none
  | some range =>
    if jGt0 range.length then
      match compilerSourcePathF bi2p sm.bytecode range.index with
      | none => none
      | some path =>
        match range.start with
        | none => some []
        | some st =>
          walkBytes (alookup cov.pathToSyn path) log.op path
            (range.length.getD 0).toNat st ⟨none, none, none⟩
    else some []

/-- `log.bytecode || this.sources.addressToBytecode(log.address)`: an empty
(falsy) bytecode tag also falls back to the address lookup. -/
def resolvedBytecode (S : Sources) (t : TaggedLog) : Option (List Char) :=
  match t.tag with
  | .bytecode bc => if bc = [] then addressToBytecode S none else some bc
  | .address a => addressToBytecode S a

/-- Resolution and increment collection for one tagged log; the `Sources`
state may gain a cached fuzzy match. -/
def logIncs (cov : CovTables) (S : Sources) (t : TaggedLog) :
    Option (List IncKey × Sources) :=
  match resolvedBytecode S t with
  | none => none
  | some b =>
    match bytecodeToSourceMap S b with
    | none => none
    | some (sm, S') =>
      match incsOf cov S'.bytecodeAndIndexToPath sm t.log with
      | none => none
      | some incs => some (incs, S')

/-- `m[k]++` on a JS counter object/array: increment a number, keep `NaN`,
and create a `NaN` binding for a missing key. -/
def jsIncAt (m : List (Nat × Counter)) (k : Nat) : List (Nat × Counter) :=
  match alookup m k with
  | some (some n) => aset m k (some (n + 1))
  | some none => aset m k none
  | none => m ++ [(k, none)]

/-- Apply one increment to the report; a missing path entry or a missing
`b[id]` row throws. -/
def applyInc (R : Report) (k : IncKey) : Option Report :=
  match alookup R k.path with
  | none => none
  | some st =>
    match k with
    | .l _ n => some (aset R k.path { st with l := jsIncAt st.l n })
    | .b _ id alt =>
      match alookup st.b id with
      | none => none
      | some inner => some (aset R k.path { st with b := aset st.b id (jsIncAt inner alt) })
    | .f _ id => some (aset R k.path { st with f := jsIncAt st.f id })
    | .s _ id => some (aset R k.path { st with s := jsIncAt st.s id })

def applyIncs : Report → List IncKey → Option Report
  | R, [] => some R
  | R, k :: rest =>
    match applyInc R k with
    | none => none
    | some R' => applyIncs R' rest

/-- One tagged log processed by `Coverage.report`. -/
def stepLog (cov : CovTables) (R : Report) (S : Sources) (t : TaggedLog) :
    Option (Report × Sources) :=
  match logIncs cov S t with
  | none => none
  | some (incs, S') =>
    match applyIncs R incs with
    | none => none
    | some R' => some (R', S')

/-- `Coverage.report(logs, continueReport)` with the `Sources` state
threaded explicitly. -/
def reportFn (cov : CovTables) : List TaggedLog → Report → Sources → Option (Report × Sources)
  | [], R, S => some (R, S)
  | t :: rest, R, S =>
    match stepLog cov R S t with
    | none => none
    | some (R', S') => reportFn cov rest R' S'

/-- The counter cell addressed by an increment key, if present. -/
def counterAt (R : Report) (k : IncKey) : Option Counter :=
  match alookup R k.path with
  | none => none
  | some st =>
    match k with
    | .l _ n => alookup st.l n
    | .b _ id alt =>
      match alookup st.b id with
      | none => none
      | some inner => alookup inner alt
    | .f _ id => alookup st.f id
    | .s _ id => alookup st.s id

/-! ## Coverage: offset-to-position and filtering -/

/-- `Coverage.buildOffsetToPosition` over the UTF-8 byte stream (the result
of `TextEncoder.encode`).  Returns the position table for offsets
`0..len` and the per-byte feature lists; note the line stored in
`features[i]` is the line computed for offset `i + 1`. -/
def buildOffsetToPosition (bytes : List Nat) :
    List SourcePosition × List (List Feature) :=
  loop ⟨1, 0⟩ bytes
where
  loop (cur : SourcePosition) : List Nat → List SourcePosition × List (List Feature)
    | [] => ([cur], [])
    | byt :: rest =>
      let isNewline := byt = 10
      let line := cur.line + (if isNewline then 1 else 0)
      let column := if isNewline then 0 else cur.column + 1
      let r := loop ⟨line, column⟩ rest
      (cur :: r.1, [Feature.l line] :: r.2)

/-- `significantFeature` from `filteredReport`: lines never, branches
always, functions and statements unless their map entry is marked `skip`;
a missing map entry throws (`none`). -/
def significantF (syn : SynTable) : Feature → Option Bool
  | .l _ => some false
  | .b _ _ => some true
  | .f id => (alookup syn.fnMap id).map (fun e => !e.skip)
  | .s id => (alookup syn.statementMap id).map (fun e => !e.skip)

/-- `fs.filter(significantFeature).length`. -/
def sigCount (syn : SynTable) : List Feature → Option Nat
  | [] => some 0
  | feat :: rest =>
    match significantF syn feat with
    | none => none
    | some tru =>
      match sigCount syn rest with
      | none => none
      | some n => some (if tru then n + 1 else n)

/-- `fs[0]['l']`: the line of the byte's first feature, `undefined` (`none`)
when that feature is not a line feature. -/
def headLineKey (fs : List Feature) : Option Nat :=
  match fs.head? with
  | some (.l n) => some n
  | _ => none

/-- The `reduce` that rebuilds `l`: keys are JS property names, so the
`undefined` key is modelled as `none`; the stored value is the original
counter (or `undefined` when the line key is missing from it). -/
def filteredL (syn : SynTable) (origL : List (Nat × Counter)) :
    List (List Feature) → List (Option Nat × Option Counter) →
    Option (List (Option Nat × Option Counter))
  | [], acc => some acc
  | fs :: rest, acc =>
    match sigCount syn fs with
    | none => none
    | some n =>
      if n > 0 then
        let key := headLineKey fs
        let v : Option Counter :=
          match key with
          | some ln => alookup origL ln
          | none => none
        filteredL syn origL rest (aset acc key v)
      else filteredL syn origL rest acc

/-- A filtered per-path record: all fields of the original stats except that
`l` has been rewritten to the significant lines only. -/
structure FilteredStats where
  path : List Char
  branchMap : List (Nat × BranchEntry)
  fnMap : List (Nat × FnEntry)
  statementMap : List (Nat × StmtEntry)
  lF : List (Option Nat × Option Counter)
  b : List (Nat × List (Nat × Counter))
  f : List (Nat × Counter)
  s : List (Nat × Counter)
deriving DecidableEq, Repr

/-- `Coverage.filteredReport`. -/
def filteredReport (cov : CovTables) : Report → Option (List (List Char × FilteredStats))
  | [] => some []
  | (path, st) :: rest =>
    if startsC '#' path then filteredReport cov rest
    else if containsC ':' path then filteredReport cov rest
    else
      match alookup cov.pathToSyn path with
      | none => none
      | some syn =>
        match filteredL syn st.l syn.features [] with
        | none => none
        | some lF =>
          match filteredReport cov rest with
          | none => none
          | some more =>
            some ((path,
              { path := st.path, branchMap := st.branchMap, fnMap := st.fnMap,
                statementMap := st.statementMap, lF := lF,
                b := st.b, f := st.f, s := st.s }) :: more)

/-! ## Concrete instances used in witnesses and counterexamples -/

/-- Path used by the small concrete coverage instances. -/
def exPath : List Char := "a".data

def exBc : List Char := "60aa".data

def exSrc : CompilerSource := { path := exPath, content := "x\n".data, id := 0 }

def exSm : SourceMapT :=
  { fqdn := []
    bytecode := exBc
    pcToInstructionIndices := [(0, 0)]
    instructionIndexToRanges := [(0, ⟨some 0, some 2, some 0⟩)]
    compilerSources := [exSrc] }

def exSources : Sources :=
  { addressToBytecodes := []
    bytecodeToSourceMaps := [(exBc, exSm)]
    bytecodeAndIndexToPath := [(exBc, [(0, exPath)])]
    pathToCompilerSources := [(exPath, exSrc)]
    unique := 0 }

def exFnEntry : FnEntry :=
  { name := "f0".data, line := 1, loc := ⟨⟨1, 0⟩, ⟨1, 0⟩⟩, skip := false }

/-- Two function features on one opcode's two-byte range; the first has
function id 0, which defeats the `!fn` dedup guard. -/
def exSyn : SynTable :=
  { features := [[.l 1, .f 0], [.l 1, .f 1]]
    lines := ["x".data, []]
    branchMap := []
    fnMap := [(0, exFnEntry), (1, exFnEntry)]
    statementMap := [] }

def exCov : CovTables := { pathToSyn := [(exPath, exSyn)] }

def exJumpLog : TaggedLog :=
  { log := { depth := 1, memory := [], op := "JUMPDEST".data, pc := 0, stack := [] }
    tag := .bytecode exBc }

/-- A CALL (depth 1) whose second-from-top stack word carries the callee. -/
def exCallLog : StructLog :=
  { depth := 1, memory := [], op := "CALL".data, pc := 0
    stack := ["000000000000000000000000ab".data, "00".data] }

def exRetLog : StructLog :=
  { depth := 2, memory := [], op := "RETURN".data, pc := 1, stack := [] }

def exStopLog : StructLog :=
  { depth := 1, memory := [], op := "STOP".data, pc := 2, stack := [] }

def exCallInfo : TraceInfo :=
  { txData := { toAddr := some ("0xcc".data), input := none }
    structLogs := [exCallLog, exRetLog, exStopLog] }

/-- A CREATE whose copied constructor bytecode is the empty string
(`length` argument 0). -/
def exCreateLog : StructLog :=
  { depth := 1, memory := [], op := "CREATE".data, pc := 0
    stack := ["0".data, "0".data, "0".data] }

def exStop2Log : StructLog :=
  { depth := 2, memory := [], op := "STOP".data, pc := 1, stack := [] }

def exCreateInfo : TraceInfo :=
  { txData := { toAddr := some ("0xcc".data), input := none }
    structLogs := [exCreateLog, exStop2Log] }

/-- Three compiler sources sharing the path `A.sol`: contents c1, c2, c2. -/
def exDupSrc1 : CompilerSource := { path := "A.sol".data, content := "c1".data, id := 0 }

def exDupSrc2 : CompilerSource := { path := "A.sol".data, content := "c2".data, id := 1 }

def exDupSrc3 : CompilerSource := { path := "A.sol".data, content := "c2".data, id := 2 }

def exDupBc : List Char := "6001".data

def exDupSm : SourceMapT :=
  { fqdn := []
    bytecode := exDupBc
    pcToInstructionIndices := []
    instructionIndexToRanges := []
    compilerSources := [exDupSrc1, exDupSrc2, exDupSrc3] }

/-- A known bytecode with zeroed immutable slots, and a deployed bytecode
differing exactly there. -/
def exFuzzyK : List Char := "ab00cd00ef00cd00ef00cd00ef00cd00ef00cd00ef00cd".data

def exFuzzyB : List Char := "ab11cd22ef00cd00ef00cd00ef00cd00ef00cd00ef00cd".data

def exFuzzySm : SourceMapT :=
  { fqdn := []
    bytecode := exFuzzyK
    pcToInstructionIndices := []
    instructionIndexToRanges := []
    compilerSources := [] }

def exFuzzySources : Sources :=
  { addressToBytecodes := []
    bytecodeToSourceMaps := [(exFuzzyK, exFuzzySm)]
    bytecodeAndIndexToPath := [(exFuzzyK, [])]
    pathToCompilerSources := []
    unique := 0 }

/-- A tagged log of a creation frame: the `undefined` address. -/
def exNullLog : TaggedLog :=
  { log := { depth := 1, memory := [], op := "PUSH1".data, pc := 0, stack := [] }
    tag := .address none }

def exCreationTxInfo : TraceInfo :=
  { txData := { toAddr := none, input := some ("0x6001".data) }
    structLogs := [] }

/-! ## Specification-side helper definitions -/

/-- Claim-side reading of source-map field inheritance: the value of field
`j` at entry `k` is the parse of the last non-empty occurrence of that
field among entries `0..k`, or the initial value. -/
def accField (entries : List (List Char)) (j : Nat) (init : JsNum) (k : Nat) : JsNum :=
  match ((entries.take (k + 1)).reverse.find?
      (fun e => ((splitOnC ':' e).get? j).getD [] ≠ [])) with
  | some e => parseIntJS (((splitOnC ':' e).get? j).getD [])
  | none => init

/-- Field inheritance from the initial state 0. -/
def inheritedVal (entries : List (List Char)) (j k : Nat) : JsNum :=
  accField entries j (some 0) k

/-- Structural invariant of a `Sources` state: every bytecode with an entry
in `bytecodeAndIndexToPath` also has one in `bytecodeToSourceMaps` (the
constructor and all mutations only ever index bytecodes they have stored). -/
def invS (S : Sources) : Bool :=
  S.bytecodeAndIndexToPath.all (fun p => (alookup S.bytecodeToSourceMaps p.1).isSome)

/-- Fully indexed, no pending path conflicts: every compiler source of
every known SourceMap already has a stored entry with equal content under
its path (the state the constructor produces when no two sources share a
path with different contents), so re-indexing a cached bytecode always
takes the content-reuse branch and never reaches the crash-prone
disambiguation search. -/
def reusableS (S : Sources) : Bool :=
  S.bytecodeToSourceMaps.all (fun p =>
    p.2.compilerSources.all (fun src =>
      match alookup S.pathToCompilerSources src.path with
      | none => false
      | some e => e.content = src.content))

/-- Claim-side statement of the two fuzzy rules: same length with every hex
position equal or zero in the known bytecode, or a strict prefix longer
than 42 characters. -/
def MatchesRule (b k : List Char) : Prop :=
  (b.length = k.length ∧
     ∀ i, i < b.length → b.get? i = k.get? i ∨ k.get? i = some '0') ∨
  (b.length > k.length ∧ k.length > 42 ∧ b.take k.length = k)

/-- Lookup-preservation between `Sources` states: the address map is
unchanged and every stored SourceMap and path table survives. -/
def SExt (S T : Sources) : Prop :=
  T.addressToBytecodes = S.addressToBytecodes ∧
  (∀ b v, alookup S.bytecodeToSourceMaps b = some v →
     alookup T.bytecodeToSourceMaps b = some v) ∧
  (∀ b v, alookup S.bytecodeAndIndexToPath b = some v →
     alookup T.bytecodeAndIndexToPath b = some v)

/-- The first previously disambiguated path of `base` whose stored content
matches, among indices `0..unique-1`. -/
def firstDisMatch (p2cs : List (List Char × CompilerSource)) (base content : List Char)
    (unique : Nat) : Option Nat :=
  (List.range unique).find? (fun i =>
    match alookup p2cs (disPath base i) with
    | some e => e.content = content
    | none => false)

/-- The increment lists contributed by each log in turn, threading the
`Sources` state but ignoring the report (the resolution never reads it). -/
def incsTrace (cov : CovTables) : Sources → List TaggedLog → Option (List (List IncKey) × Sources)
  | S, [] => some ([], S)
  | S, t :: rest =>
    match logIncs cov S t with
    | none => none
    | some (incs, S') =>
      match incsTrace cov S' rest with
      | none => none
      | some (DS, S'') => some (incs :: DS, S'')

def applyIncsList : Report → List (List IncKey) → Option Report
  | R, [] => some R
  | R, D :: DS =>
    match applyIncs R D with
    | none => none
    | some R' => applyIncsList R' DS

/-- The value of a counter cell after one JS `++`: numbers increment, `NaN`
stays `NaN`, and a missing cell becomes `NaN`. -/
def jsIncC : Option Counter → Counter
  | some (some n) => some (n + 1)
  | some none => none
  | none => none

/-- The value of a counter cell after `c` JS `++` increments: with no
increments the cell is untouched; otherwise a numeric cell gains `c`, a
`NaN` cell stays `NaN`, and a missing cell is created holding `NaN`
(`undefined + 1` is `NaN`, and so is `NaN + 1`). -/
def jsAddCount (oc : Option Counter) (c : Nat) : Option Counter :=
  if c = 0 then oc
  else
    match oc with
    | some (some n) => some (some (n + c))
    | _ => some none

/-- Whether one path's stats can absorb an increment without throwing: only
a `b` increment can throw, on a missing `b[id]` row. -/
def canIncSt (st : PathStats) : IncKey → Prop
  | .b _ id _ => (alookup st.b id).isSome = true
  | _ => True

/-- Whether `applyInc` succeeds on this key: the path entry must exist and,
for a branch increment, the `b[id]` row must exist.  A missing counter
cell is no obstacle — JS creates it as `NaN`. -/
def canInc (R : Report) (k : IncKey) : Prop :=
  match alookup R k.path with
  | none => False
  | some st => canIncSt st k

/-- The counter cell of one path's stats addressed by an increment key. -/
def statCounter (st : PathStats) : IncKey → Option Counter
  | .l _ n => alookup st.l n
  | .b _ id alt =>
    match alookup st.b id with
    | none => none
    | some inner => alookup inner alt
  | .f _ id => alookup st.f id
  | .s _ id => alookup st.s id

/-! ## Association-list lemmas -/

theorem alookup_aset_self {α β : Type} [DecidableEq α] (m : List (α × β)) (k : α) (v : β) :
    alookup (aset m k v) k = some v := by
  induction m with
  | nil => simp [aset, alookup]
  | cons hd tl ih =>
    obtain ⟨k', v'⟩ := hd
    by_cases h : k = k' <;> simp [aset, alookup, h, ih]

theorem alookup_aset_ne {α β : Type} [DecidableEq α] (m : List (α × β)) (k k' : α) (v : β)
    (h : k' ≠ k) : alookup (aset m k v) k' = alookup m k' := by
  induction m with
  | nil => simp [aset, alookup, h]
  | cons hd tl ih =>
    obtain ⟨k0, v0⟩ := hd
    by_cases h0 : k = k0
    · subst h0
      simp [aset, alookup, h]
    · by_cases h1 : k' = k0 <;> simp [aset, alookup, h0, h1, ih]

theorem alookup_append {α β : Type} [DecidableEq α] (m₁ m₂ : List (α × β)) (k : α) :
    alookup (m₁ ++ m₂) k = (alookup m₁ k).orElse (fun _ => alookup m₂ k) := by
  induction m₁ with
  | nil => simp [alookup]
  | cons hd tl ih =>
    obtain ⟨k0, v0⟩ := hd
    by_cases h : k = k0 <;> simp [alookup, h, ih]

theorem alookup_map_val {α β γ : Type} [DecidableEq α] (g : α → β → γ)
    (m : List (α × β)) (k : α) :
    alookup (m.map (fun p => (p.1, g p.1 p.2))) k = (alookup m k).map (g k) := by
  induction m with
  | nil => simp [alookup]
  | cons hd tl ih =>
    obtain ⟨k0, v0⟩ := hd
    by_cases h : k = k0 <;> simp [alookup, h, ih]

/-- When the key is not present, JS assignment appends the new binding. -/
theorem aset_eq_append {α β : Type} [DecidableEq α] (m : List (α × β)) (k : α) (v : β)
    (h : alookup m k = none) : aset m k v = m ++ [(k, v)] := by
  induction m with
  | nil => simp [aset]
  | cons hd tl ih =>
    obtain ⟨k0, v0⟩ := hd
    by_cases h0 : k = k0
    · simp [alookup, h0] at h
    · simp [alookup, h0] at h
      simp [aset, h0, ih h]

theorem alookup_range_const {β : Type} (n : Nat) (c : β) (k : Nat) :
    alookup ((List.range n).map (fun i => (i, c))) k =
      if k < n then some c else none := by
  induction n with
  | zero => simp [alookup]
  | succ m ih =>
    rw [List.range_succ]
    simp only [List.map_append]
    rw [alookup_append, ih]
    by_cases h : k < m
    · simp [h, Nat.lt_succ_of_lt h]
    · by_cases h2 : k = m
      · subst h2
        simp [h, alookup, Nat.lt_succ_self]
      · have : ¬ k < m + 1 := by omega
        simp [h, h2, this, alookup]

/-! ## Claim C1 -/

/-- Claim C1 (refuted; evaluation at the failing input): the walker's loop
bound is the hex-string length, not the decoded byte length, so the
bytecode `60aa00` (PUSH1, one data byte, STOP — three decoded bytes) does
not yield the table mapping 0 to 0 and 2 to 1 claimed by the spec: it also
records the out-of-range pcs 3, 4 and 5, each at or beyond the decoded
length 3. -/
theorem c1_code_eval :
    buildPCToInstructionIndices ("60aa00".data) = [(0, 0), (2, 1), (3, 2), (4, 3), (5, 4)]
    ∧ (hexDecode ("60aa00".data)).length = 3 := by
  constructor <;> rfl

/-! ## Claim C4 -/

/-- Claim C4 (refuted at a concrete input): for the one-byte content
consisting of a single newline byte, `features[0]` holds the line feature
for line 2 while `offsetToPosition[0].line = 1`. -/
theorem c4_counterexample :
    (buildOffsetToPosition [10]).2.get? 0 = some [Feature.l 2]
    ∧ ((buildOffsetToPosition [10]).1.get? 0).map SourcePosition.line = some 1
    ∧ (2 : Nat) ≠ 1 := by
  refine ⟨rfl, rfl, by decide⟩

theorem buildO2P_loop_head (cur : SourcePosition) (bytes : List Nat) :
    (buildOffsetToPosition.loop cur bytes).1.head? = some cur := by
  cases bytes <;> rfl

theorem buildO2P_loop_spec (bytes : List Nat) (cur : SourcePosition) (i : Nat)
    (h : i < bytes.length) :
    ∃ p p' : SourcePosition,
      (buildOffsetToPosition.loop cur bytes).1.get? i = some p ∧
      (buildOffsetToPosition.loop cur bytes).1.get? (i + 1) = some p' ∧
      (buildOffsetToPosition.loop cur bytes).2.get? i = some [Feature.l p'.line] ∧
      p'.line = p.line + (if bytes.get? i = some 10 then 1 else 0) := by
  induction bytes generalizing cur i with
  | nil => simp at h
  | cons byt rest ih =>
    match i with
    | 0 =>
      refine ⟨cur, ⟨cur.line + (if byt = 10 then 1 else 0),
        if byt = 10 then 0 else cur.column + 1⟩, ?_, ?_, ?_, ?_⟩
      · rfl
      · show (buildOffsetToPosition.loop cur (byt :: rest)).1.get? 1 = _
        have : (buildOffsetToPosition.loop cur (byt :: rest)).1 =
            cur :: (buildOffsetToPosition.loop
              ⟨cur.line + (if byt = 10 then 1 else 0),
               if byt = 10 then 0 else cur.column + 1⟩ rest).1 := by
          by_cases hb : byt = 10 <;> simp [buildOffsetToPosition.loop, hb]
        rw [this]
        show (buildOffsetToPosition.loop _ rest).1.get? 0 = _
        rw [List.get?_zero, buildO2P_loop_head]
      · by_cases hb : byt = 10 <;> simp [buildOffsetToPosition.loop, hb]
      · simp
    | j + 1 =>
      have hj : j < rest.length := by simpa using h
      obtain ⟨p, p', h1, h2, h3, h4⟩ := ih
        ⟨cur.line + (if byt = 10 then 1 else 0),
         if byt = 10 then 0 else cur.column + 1⟩ j hj
      refine ⟨p, p', ?_, ?_, ?_, ?_⟩
      · by_cases hb : byt = 10 <;>
          simpa [buildOffsetToPosition.loop, hb] using h1
      · by_cases hb : byt = 10 <;>
          simpa [buildOffsetToPosition.loop, hb] using h2
      · by_cases hb : byt = 10 <;>
          simpa [buildOffsetToPosition.loop, hb] using h3
      · simpa using h4

/-- Claim C4 (amended): for every byte offset `i < len`, `features[i][0]` is
a Line feature whose line equals `offsetToPosition[i + 1].line`, which is
`offsetToPosition[i].line` for a non-newline byte and
`offsetToPosition[i].line + 1` for a newline byte (the source stores the
line computed for the next offset, not the current one). -/
theorem c4_amended (bytes : List Nat) (i : Nat) (h : i < bytes.length) :
    ∃ p p' : SourcePosition,
      (buildOffsetToPosition bytes).1.get? i = some p ∧
      (buildOffsetToPosition bytes).1.get? (i + 1) = some p' ∧
      (buildOffsetToPosition bytes).2.get? i = some [Feature.l p'.line] ∧
      p'.line = p.line + (if bytes.get? i = some 10 then 1 else 0) :=
  buildO2P_loop_spec bytes ⟨1, 0⟩ i h

/-- Witness for the amended C4 at the concrete newline-byte content. -/
theorem c4_amended_witness :
    ∃ p p' : SourcePosition,
      (buildOffsetToPosition [10]).1.get? 0 = some p ∧
      (buildOffsetToPosition [10]).1.get? 1 = some p' ∧
      (buildOffsetToPosition [10]).2.get? 0 = some [Feature.l p'.line] ∧
      p'.line = p.line + (if [10].get? 0 = some 10 then 1 else 0) :=
  c4_amended [10] 0 (by decide)

/-! ## Claim C2 -/

/-- Claim C2 (refuted; evaluation at the failing input): with two function
features on one JUMPDEST's range where the first carries function id 0, the
JS guard `!fn` is still true after counting id 0 (since `!0` is truthy), so
the second function feature is counted as well — contradicting both the
claim and the source's own comment that only the first function feature
counts.  The line and function-0 counters behave as claimed. -/
theorem c2_code_eval :
    (reportFn exCov [exJumpLog] (freshReport exCov) exSources).map
        (fun r => (counterAt r.1 (.f exPath 0), counterAt r.1 (.f exPath 1),
                   counterAt r.1 (.l exPath 1)))
      = some (some (some 1), some (some 1), some (some 1)) := by
  rfl

/-! ## Claim C3 -/

/-- Claim C3 (refuted at a concrete input): a CREATE that copies an empty
constructor bytecode pushes a frame whose `bytecode` is the empty string;
being falsy, the next opcode is tagged `{address: undefined}` rather than
with the frame's bytecode, although the frame was created by CREATE. -/
theorem c3_counterexample :
    followInfo exCreateInfo =
      some [⟨exCreateLog, .address (some ("0xcc".data))⟩, ⟨exStop2Log, .address none⟩]
    ∧ Tag.address none ≠ Tag.bytecode [] := by
  exact ⟨rfl, by decide⟩

theorem followStep_log (frames : List Frame) (log : StructLog) (next : Option StructLog)
    (t : TaggedLog) (frames' : List Frame)
    (h : followStep frames log next = some (t, frames')) : t.log = log := by
  unfold followStep at h
  cases hf : frames.head? with
  | none => rw [hf] at h; exact absurd h (by simp)
  | some top =>
    rw [hf] at h
    simp only [] at h
    split at h
    · split at h <;> (injection h with h1; cases h1; rfl)
    · split at h
      · split at h
        · split at h
          · injection h with h1; cases h1; rfl
          · exact absurd h (by simp)
        · exact absurd h (by simp)
      · split at h
        · split at h <;> (injection h with h1; cases h1; rfl)
        · exact absurd h (by simp)

theorem followLoop_proj (logs : List StructLog) (frames : List Frame) (out : List TaggedLog)
    (h : followLoop frames logs = some out) :
    out.length = logs.length ∧
    ∀ k (hk : k < out.length) (hk' : k < logs.length),
      (out.get ⟨k, hk⟩).log = logs.get ⟨k, hk'⟩ := by
  induction logs generalizing frames out with
  | nil =>
    simp only [followLoop] at h
    injection h with h1
    subst h1
    exact ⟨rfl, fun k hk => by simp at hk⟩
  | cons log rest ih =>
    simp only [followLoop] at h
    cases hs : followStep frames log rest.head? with
    | none => rw [hs] at h; exact absurd h (by simp)
    | some pr =>
      obtain ⟨t, fr'⟩ := pr
      rw [hs] at h
      simp only [] at h
      cases hl : followLoop fr' rest with
      | none => rw [hl] at h; exact absurd h (by simp)
      | some ts =>
        rw [hl] at h
        injection h with h1
        subst h1
        obtain ⟨hlen, hproj⟩ := ih fr' ts hl
        refine ⟨by simpa using hlen, ?_⟩
        intro k hk hk'
        match k with
        | 0 => exact followStep_log frames log rest.head? t fr' hs
        | j + 1 =>
          have hj : j < ts.length := by simpa using hk
          have hj' : j < rest.length := by simpa using hk'
          simpa using hproj j hj hj'

/-- Claim C3 (amended): `followInfo` yields exactly one tagged log per struct
log, in order; each log is tagged with the top frame's bytecode when that
frame was created by CREATE/CREATE2 and the captured bytecode is non-empty
(a frame with empty bytecode is falsy and is tagged with the `undefined`
address instead), and otherwise with the top frame's address; a call-family
opcode pushes the frame holding the parsed callee address iff the next
depth is the current depth plus 1; any opcode outside the call and create
families requires non-increasing depth and pops iff depth decreases; the
CALL/RETURN scenario tags the middle log with the callee and resumes the
caller's frame. -/
theorem c3_amended :
    (∀ info out, followInfo info = some out →
       out.length = info.structLogs.length ∧
       ∀ k (hk : k < out.length) (hk' : k < info.structLogs.length),
         (out.get ⟨k, hk⟩).log = info.structLogs.get ⟨k, hk'⟩) ∧
    (∀ frames top log next t frames',
       frames.head? = some top →
       followStep frames log next = some (t, frames') →
       t = ⟨log, tagOfFrame top⟩ ∧
       (log.op ∈ callOps →
          (((next.getD log).depth = log.depth + 1) ↔
             frames' = Frame.addr (some (parseAddress (nthStackBack log.stack 1))) :: frames) ∧
          ((next.getD log).depth ≠ log.depth + 1 → frames' = frames)) ∧
       (log.op ∉ callOps → log.op ∉ createOps →
          (next.getD log).depth ≤ log.depth ∧
          (((next.getD log).depth < log.depth) ↔ frames' = frames.tail) ∧
          ((next.getD log).depth = log.depth → frames' = frames))) ∧
    followInfo exCallInfo =
      some [⟨exCallLog, .address (some ("0xcc".data))⟩,
            ⟨exRetLog, .address (some ("0xab".data))⟩,
            ⟨exStopLog, .address (some ("0xcc".data))⟩] := by
  refine ⟨fun info out h => followLoop_proj info.structLogs _ out h, ?_, by rfl⟩
  intro frames top log next t frames' h1 h2
  unfold followStep at h2
  rw [h1] at h2
  simp only [] at h2
  by_cases hc : log.op ∈ callOps
  · rw [if_pos hc] at h2
    by_cases hd : (next.getD log).depth = log.depth + 1
    · rw [if_pos hd] at h2
      injection h2 with h3
      injection h3 with h3 h4
      subst h3; subst h4
      refine ⟨rfl, fun _ => ⟨⟨fun _ => rfl, fun _ => hd⟩, fun hnd => absurd hd hnd⟩,
        fun hnc _ => absurd hc hnc⟩
    · rw [if_neg hd] at h2
      injection h2 with h3
      injection h3 with h3 h4
      subst h3; subst h4
      refine ⟨rfl, fun _ => ⟨⟨fun hdd => absurd hdd hd, fun hpush => ?_⟩, fun _ => rfl⟩,
        fun hnc _ => absurd hc hnc⟩
      · have := congrArg List.length hpush
        simp at this
  · rw [if_neg hc] at h2
    by_cases hcr : log.op ∈ createOps
    · rw [if_pos hcr] at h2
      by_cases hd : (next.getD log).depth = log.depth + 1
      · rw [if_pos hd] at h2
        cases hp1 : parseUintJS (nthStackBack log.stack 1) with
        | none => rw [hp1] at h2; exact absurd h2 (by simp)
        | some offset =>
          cases hp2 : parseUintJS (nthStackBack log.stack 2) with
          | none => rw [hp1, hp2] at h2; exact absurd h2 (by simp)
          | some len =>
            rw [hp1, hp2] at h2
            simp only [] at h2
            injection h2 with h3
            injection h3 with h3 h4
            subst h3
            exact ⟨rfl, fun hcc => absurd hcc hc, fun _ hncr => absurd hcr hncr⟩
      · rw [if_neg hd] at h2
        exact absurd h2 (by simp)
    · rw [if_neg hcr] at h2
      by_cases hle : (next.getD log).depth ≤ log.depth
      · rw [if_pos hle] at h2
        injection h2 with h3
        injection h3 with h3 h4
        subst h3
        refine ⟨rfl, fun hcc => absurd hcc hc, fun _ _ => ⟨hle, ?_, ?_⟩⟩
        · constructor
          · intro hlt
            rw [← h4, if_pos hlt]
          · intro htl
            by_contra hnlt
            rw [if_neg hnlt] at h4
            subst h4
            cases frames with
            | nil => simp [List.head?] at h1
            | cons a rest => exact List.cons_ne_self a rest htl
        · intro heq
          have hnlt : ¬ (next.getD log).depth < log.depth := by omega
          rw [← h4, if_neg hnlt]
      · rw [if_neg hle] at h2
        exact absurd h2 (by simp)

/-- Witness for the amended C3 at the CALL/RETURN scenario. -/
theorem c3_amended_witness :
    ([⟨exCallLog, Tag.address (some ("0xcc".data))⟩,
      ⟨exRetLog, Tag.address (some ("0xab".data))⟩,
      ⟨exStopLog, Tag.address (some ("0xcc".data))⟩] : List TaggedLog).length
      = exCallInfo.structLogs.length :=
  (c3_amended.1 exCallInfo _ (by rfl)).1

/-! ## Claim C8 -/

theorem accField_cons (e : List Char) (rest : List (List Char)) (j : Nat) (init : JsNum)
    (k : Nat) :
    accField (e :: rest) j init (k + 1) =
      accField rest j
        (if ((splitOnC ':' e).get? j).getD [] = [] then init
         else parseIntJS (((splitOnC ':' e).get? j).getD [])) k := by
  unfold accField
  rw [List.take_succ_cons, List.reverse_cons, List.find?_append]
  cases hf : (rest.take (k + 1)).reverse.find?
      (fun e => decide (((splitOnC ':' e).get? j).getD [] ≠ [])) with
  | some found => simp [Option.or]
  | none =>
    by_cases he : ((splitOnC ':' e).get? j).getD [] = []
    · rw [List.find?_cons_of_neg _ (by simpa using he), if_pos he]
      rfl
    · rw [List.find?_cons_of_pos _ (by simpa using he), if_neg he]
      rfl

theorem accField_zero (e : List Char) (rest : List (List Char)) (j : Nat) (init : JsNum) :
    accField (e :: rest) j init 0 =
      (if ((splitOnC ':' e).get? j).getD [] = [] then init
       else parseIntJS (((splitOnC ':' e).get? j).getD [])) := by
  unfold accField
  simp only [List.take_succ_cons, List.take_zero, List.reverse_cons, List.reverse_nil,
    List.nil_append]
  by_cases he : ((splitOnC ':' e).get? j).getD [] = []
  · rw [List.find?_cons_of_neg _ (by simpa using he), if_pos he]
    rfl
  · rw [List.find?_cons_of_pos _ (by simpa using he), if_neg he]

theorem smRanges_spec (entries : List (List Char)) (state : JsNum × JsNum × JsNum)
    (idx : Nat) (k : Nat) (hk : k < entries.length) :
    alookup (smRanges state idx entries) (idx + k) =
      some ⟨accField entries 0 state.1 k,
            accField entries 1 state.2.1 k,
            accField entries 2 state.2.2 k⟩ := by
  induction entries generalizing state idx k with
  | nil => simp at hk
  | cons e rest ih =>
    match k with
    | 0 =>
      show alookup ((idx, _) :: smRanges _ (idx + 1) rest) idx = _
      rw [alookup, if_pos rfl]
      rw [accField_zero, accField_zero, accField_zero]
      rfl
    | j + 1 =>
      have hj : j < rest.length := by simpa using hk
      show alookup ((idx, _) :: smRanges (smStep state e) (idx + 1) rest) (idx + (j + 1)) = _
      rw [alookup, if_neg (by omega)]
      have := ih (smStep state e) (idx + 1) j hj
      rw [show idx + 1 + j = idx + (j + 1) by omega] at this
      rw [this, accField_cons, accField_cons, accField_cons]
      rfl

/-- Claim C8 (confirmed): `parse` splits on `;`, folds the entries with
state starting at 0/0/0 where an empty `s`, `l` or `f` field inherits the
previous value (equivalently: entry `k` carries, for each field, the parse
of its last non-empty occurrence among entries `0..k`), and stores entry
`k` at instruction index `k`; in particular `10:20:0;;5::` yields the
ranges 10/20/0, 10/20/0 and 5/20/0 at indices 0, 1 and 2. -/
theorem c8_parse_inheritance :
    (∀ objectHex sourceMap sources fqdn k,
       k < (splitOnC ';' sourceMap).length →
       alookup (SourceMapT.parse objectHex sourceMap sources fqdn).instructionIndexToRanges k =
         some ⟨inheritedVal (splitOnC ';' sourceMap) 0 k,
               inheritedVal (splitOnC ';' sourceMap) 1 k,
               inheritedVal (splitOnC ';' sourceMap) 2 k⟩) ∧
    (SourceMapT.parse [] ("10:20:0;;5::".data) [] []).instructionIndexToRanges =
      [(0, ⟨some 10, some 20, some 0⟩),
       (1, ⟨some 10, some 20, some 0⟩),
       (2, ⟨some 5, some 20, some 0⟩)] := by
  constructor
  · intro objectHex sourceMap sources fqdn k hk
    have := smRanges_spec (splitOnC ';' sourceMap) (some 0, some 0, some 0) 0 k hk
    simpa [SourceMapT.parse, inheritedVal] using this
  · rfl

/-- Witness for C8 at the concrete inheritance example, index 2. -/
theorem c8_witness :
    alookup (SourceMapT.parse [] ("10:20:0;;5::".data) [] []).instructionIndexToRanges 2 =
      some ⟨inheritedVal (splitOnC ';' ("10:20:0;;5::".data)) 0 2,
            inheritedVal (splitOnC ';' ("10:20:0;;5::".data)) 1 2,
            inheritedVal (splitOnC ';' ("10:20:0;;5::".data)) 2 2⟩ :=
  c8_parse_inheritance.1 [] ("10:20:0;;5::".data) [] [] 2 (by decide)

/-! ## Claim C7 -/

theorem searchDis_spec (p2cs : List (List Char × CompilerSource)) (base content : List Char)
    (is : List Nat) (h : ∀ i ∈ is, (alookup p2cs (disPath base i)).isSome) :
    searchDis p2cs base content is =
      some ((is.find? (fun i =>
        match alookup p2cs (disPath base i) with
        | some e => e.content = content
        | none => false)).map (disPath base)) := by
  induction is with
  | nil => rfl
  | cons i rest ih =>
    have hi := h i (by simp)
    cases he : alookup p2cs (disPath base i) with
    | none => rw [he] at hi; simp at hi
    | some e =>
      have hstep : searchDis p2cs base content (i :: rest) =
          (if e.content = content then some (some (disPath base i))
           else searchDis p2cs base content rest) := by
        simp only [searchDis]
        rw [he]
      rw [hstep]
      by_cases hc : e.content = content
      · rw [if_pos hc, List.find?_cons_of_pos _ (by simp [he, hc])]
        rfl
      · rw [if_neg hc, List.find?_cons_of_neg _ (by simp [he, hc]),
          ih (fun x hx => h x (by simp [hx]))]

/-- Claim C7 (confirmed): when a source's path already holds an entry with
different content, `indexBytecodeToSourceMap` searches `path:0` through
`path:(unique-1)` (each probed entry must exist) and reuses the first whose
content matches; otherwise it stores the source under `path:unique` and
increments `unique`.  In particular, indexing a bytecode whose sources are
`A.sol`/c1, `A.sol`/c2, `A.sol`/c2 stores paths `A.sol` and `A.sol:0` and
resolves the third source to `A.sol:0` without a new entry (`unique` stays
1 and `pathToCompilerSources` keeps exactly two entries). -/
theorem c7_disambiguation :
    (∀ st src e, alookup st.p2cs src.path = some e → e.content ≠ src.content →
       (∀ i, i < st.unique → (alookup st.p2cs (disPath src.path i)).isSome) →
       indexSrc st src = some (
         match firstDisMatch st.p2cs src.path src.content st.unique with
         | some i => { st with si2p := aset st.si2p src.id (disPath src.path i) }
         | none =>
           { si2p := aset st.si2p src.id (disPath src.path st.unique)
             p2cs := aset st.p2cs (disPath src.path st.unique)
                       { src with path := disPath src.path st.unique }
             unique := st.unique + 1 })) ∧
    mkSources [(exDupBc, exDupSm)] =
      some { addressToBytecodes := []
             bytecodeToSourceMaps := [(exDupBc, exDupSm)]
             bytecodeAndIndexToPath :=
               [(exDupBc, [(0, "A.sol".data), (1, "A.sol:0".data), (2, "A.sol:0".data)])]
             pathToCompilerSources :=
               [("A.sol".data, exDupSrc1),
                ("A.sol:0".data, { path := "A.sol:0".data, content := "c2".data, id := 1 })]
             unique := 1 } := by
  constructor
  · intro st src e h1 h2 h3
    have hstep : indexSrc st src =
        (match searchDis st.p2cs src.path src.content (List.range st.unique) with
         | none => none
         | some (some p) => some { st with si2p := aset st.si2p src.id p }
         | some none =>
           some { si2p := aset st.si2p src.id (disPath src.path st.unique)
                  p2cs := aset st.p2cs (disPath src.path st.unique)
                            { src with path := disPath src.path st.unique }
                  unique := st.unique + 1 }) := by
      simp only [indexSrc]
      rw [h1]
      simp [h2]
    rw [hstep,
      searchDis_spec st.p2cs src.path src.content (List.range st.unique)
        (fun i hi => h3 i (List.mem_range.mp hi))]
    unfold firstDisMatch
    cases (List.range st.unique).find? (fun i =>
        match alookup st.p2cs (disPath src.path i) with
        | some e => e.content = src.content
        | none => false) with
    | none => rfl
    | some i => rfl
  · rfl

/-- Witness for C7's general part: indexing `A.sol`/c2 against a table
already holding `A.sol`/c1 with `unique = 0` allocates `A.sol:0`. -/
theorem c7_witness :
    indexSrc { si2p := [], p2cs := [("A.sol".data, exDupSrc1)], unique := 0 } exDupSrc2 =
      some { si2p := [(1, "A.sol:0".data)]
             p2cs := [("A.sol".data, exDupSrc1),
                      ("A.sol:0".data, { path := "A.sol:0".data, content := "c2".data, id := 1 })]
             unique := 1 } := by
  have := c7_disambiguation.1
    { si2p := [], p2cs := [("A.sol".data, exDupSrc1)], unique := 0 } exDupSrc2 exDupSrc1
    (by rfl) (by decide) (fun i hi => by simp at hi)
  simpa using this

/-! ## Claim C5 -/

theorem sameLenMismatch_false_iff (b k : List Char) (h : b.length = k.length) :
    sameLenMismatch b k = false ↔
      (∀ i, i < b.length → b.get? i = k.get? i ∨ k.get? i = some '0') := by
  induction b generalizing k with
  | nil => simp [sameLenMismatch]
  | cons c b' ih =>
    cases k with
    | nil => simp at h
    | cons d k' =>
      have h' : b'.length = k'.length := by simpa using h
      have hsplit : sameLenMismatch (c :: b') (d :: k') = false ↔
          (¬ (c ≠ d ∧ d ≠ '0') ∧ sameLenMismatch b' k' = false) := by
        simp only [sameLenMismatch, List.zip_cons_cons, List.any_cons, Bool.or_eq_false_iff]
        constructor
        · intro hx
          exact ⟨by simpa using hx.1, hx.2⟩
        · intro hx
          exact ⟨by simpa using hx.1, hx.2⟩
      rw [hsplit, ih k' h']
      constructor
      · intro hx i hi
        match i with
        | 0 =>
          by_cases hcd : c = d
          · left; simp [hcd]
          · right
            have hd0 : d = '0' := by
              by_contra hd0
              exact hx.1 ⟨hcd, hd0⟩
            simp [hd0]
        | j + 1 => exact hx.2 j (by simpa using hi)
      · intro hp
        refine ⟨?_, fun i hi => hp (i + 1) (by simpa using hi)⟩
        intro hcd
        have h0 := hp 0 (by simp)
        simp only [List.get?] at h0
        rcases h0 with h0 | h0
        · exact hcd.1 (Option.some.inj h0)
        · exact hcd.2 (Option.some.inj h0)

theorem fuzzyHit_iff (b k : List Char) : fuzzyHit b k = true ↔ MatchesRule b k := by
  unfold fuzzyHit MatchesRule
  by_cases hlen : b.length = k.length
  · rw [if_pos hlen]
    constructor
    · intro hm
      left
      refine ⟨hlen, (sameLenMismatch_false_iff b k hlen).mp (by simpa using hm)⟩
    · intro hm
      rcases hm with ⟨_, hall⟩ | ⟨hgt, _, _⟩
      · simpa using (sameLenMismatch_false_iff b k hlen).mpr hall
      · omega
  · rw [if_neg hlen]
    by_cases hc : b.length > k.length ∧ k.length > 42
    · rw [if_pos hc]
      constructor
      · intro ht
        right
        exact ⟨hc.1, hc.2, by simpa using ht⟩
      · intro hm
        rcases hm with ⟨he, _⟩ | ⟨_, _, ht⟩
        · exact absurd he hlen
        · simpa using ht
    · rw [if_neg hc]
      constructor
      · intro hf; cases hf
      · intro hm
        rcases hm with ⟨he, _⟩ | ⟨h1, h2, _⟩
        · exact absurd he hlen
        · exact absurd ⟨h1, h2⟩ hc

theorem scanFuzzy_mem (b : List Char) (l : List (List Char × SourceMapT))
    (pr : List Char × SourceMapT) (h : scanFuzzy b l = some pr) :
    pr ∈ l ∧ fuzzyHit b pr.1 = true := by
  induction l with
  | nil => cases h
  | cons hd tl ih =>
    obtain ⟨k, sm⟩ := hd
    unfold scanFuzzy at h
    by_cases hk : fuzzyHit b k = true
    · rw [if_pos hk] at h
      injection h with h1
      subst h1
      exact ⟨by simp, hk⟩
    · rw [if_neg hk] at h
      obtain ⟨hmem, hhit⟩ := ih h
      exact ⟨by simp [hmem], hhit⟩

theorem scanFuzzy_isSome_iff (b : List Char) (l : List (List Char × SourceMapT)) :
    (scanFuzzy b l).isSome = true ↔ ∃ p ∈ l, fuzzyHit b p.1 = true := by
  induction l with
  | nil => simp [scanFuzzy]
  | cons hd tl ih =>
    obtain ⟨k, sm⟩ := hd
    unfold scanFuzzy
    by_cases hk : fuzzyHit b k = true
    · simp [hk]
    · rw [if_neg hk]
      rw [ih]
      constructor
      · intro ⟨p, hp, hhit⟩
        exact ⟨p, by simp [hp], hhit⟩
      · intro ⟨p, hp, hhit⟩
        rcases (by simpa using hp : p = (k, sm) ∨ p ∈ tl) with heq | htl
        · subst heq; exact absurd hhit hk
        · exact ⟨p, htl, hhit⟩

theorem reusableS_spec (S : Sources) (k : List Char) (sm : SourceMapT)
    (hmem : (k, sm) ∈ S.bytecodeToSourceMaps) (hre : reusableS S = true) :
    ∀ src ∈ sm.compilerSources,
      ∃ e, alookup S.pathToCompilerSources src.path = some e ∧ e.content = src.content := by
  intro src hsrc
  have h1 := List.all_eq_true.mp hre (k, sm) hmem
  have h2 := List.all_eq_true.mp h1 src hsrc
  cases he : alookup S.pathToCompilerSources src.path with
  | none => rw [he] at h2; cases h2
  | some e =>
    rw [he] at h2
    exact ⟨e, rfl, by simpa using h2⟩

theorem indexSrcs_reuse (srcs : List CompilerSource) (st : IdxSt)
    (h : ∀ src ∈ srcs,
      ∃ e, alookup st.p2cs src.path = some e ∧ e.content = src.content) :
    ∃ si2p', indexSrcs st srcs =
      some { si2p := si2p', p2cs := st.p2cs, unique := st.unique } := by
  induction srcs generalizing st with
  | nil => exact ⟨st.si2p, rfl⟩
  | cons src rest ih =>
    obtain ⟨e, he, hc⟩ := h src (by simp)
    have hstep : indexSrc st src =
        some { st with si2p := aset st.si2p src.id src.path } := by
      unfold indexSrc
      rw [he]
      simp [hc]
    have hrest := ih { st with si2p := aset st.si2p src.id src.path }
      (fun s hs => h s (by simp [hs]))
    obtain ⟨si2p', hsi⟩ := hrest
    refine ⟨si2p', ?_⟩
    unfold indexSrcs
    rw [hstep]
    exact hsi

theorem insertAndIndex_reuse (S : Sources) (b : List Char) (k : List Char) (sm : SourceMapT)
    (hmem : (k, sm) ∈ S.bytecodeToSourceMaps) (hre : reusableS S = true)
    (_hnone : alookup S.bytecodeToSourceMaps b = none) :
    ∃ si2p', insertAndIndex S b sm =
      some { S with bytecodeToSourceMaps := aset S.bytecodeToSourceMaps b sm,
                    bytecodeAndIndexToPath := aset S.bytecodeAndIndexToPath b si2p' } := by
  have hsrcs := reusableS_spec S k sm hmem hre
  obtain ⟨si2p', hsi⟩ := indexSrcs_reuse sm.compilerSources
    { si2p := (alookup S.bytecodeAndIndexToPath b).getD [],
      p2cs := S.pathToCompilerSources,
      unique := S.unique } hsrcs
  refine ⟨si2p', ?_⟩
  unfold insertAndIndex indexBytecode
  rw [show aset S.bytecodeToSourceMaps b sm =
    ({ S with bytecodeToSourceMaps := aset S.bytecodeToSourceMaps b sm }).bytecodeToSourceMaps
    from rfl]
  rw [alookup_aset_self S.bytecodeToSourceMaps b sm]
  simp only []
  rw [hsi]

/-- Claim C5 (confirmed): with no exact entry for `b`, the resolution
succeeds iff some known bytecode matches `b` by the same-length rule or the
greater-than-42 prefix rule; on success the matched SourceMap is one of a
matching known bytecode, it is cached under key `b`, and a subsequent call
returns the identical SourceMap by direct lookup; with no match it fails
(`NoSourceMap`).  The `Sources` state is assumed fully indexed with no
pending path conflicts (`reusableS`), which the claim's caching step relies
on. -/
theorem c5_fuzzy_resolution (S : Sources) (b : List Char)
    (hnone : alookup S.bytecodeToSourceMaps b = none) (hre : reusableS S = true) :
    ((∃ p ∈ S.bytecodeToSourceMaps, MatchesRule b p.1) ↔
       (bytecodeToSourceMap S b).isSome) ∧
    (∀ sm S', bytecodeToSourceMap S b = some (sm, S') →
       (∃ k, (k, sm) ∈ S.bytecodeToSourceMaps ∧ MatchesRule b k) ∧
       alookup S'.bytecodeToSourceMaps b = some sm ∧
       bytecodeToSourceMap S' b = some (sm, S')) := by
  have hmain : bytecodeToSourceMap S b =
      (match scanFuzzy b S.bytecodeToSourceMaps with
       | some (_, sm) =>
         (match insertAndIndex S b sm with
          | none => none
          | some S' => some (sm, S'))
       | none => none) := by
    unfold bytecodeToSourceMap
    rw [hnone]
  cases hscan : scanFuzzy b S.bytecodeToSourceMaps with
  | none =>
    rw [hscan] at hmain
    constructor
    · rw [hmain]
      simp only [Option.isSome_none]
      constructor
      · intro ⟨p, hp, hmr⟩
        have : (scanFuzzy b S.bytecodeToSourceMaps).isSome = true :=
          (scanFuzzy_isSome_iff b _).mpr ⟨p, hp, (fuzzyHit_iff b p.1).mpr hmr⟩
        rw [hscan] at this
        cases this
      · intro hfalse
        cases hfalse
    · intro sm S' hres
      rw [hmain] at hres
      cases hres
  | some pr =>
    obtain ⟨k, sm0⟩ := pr
    obtain ⟨hmem, hhit⟩ := scanFuzzy_mem b _ _ hscan
    obtain ⟨si2p', hins⟩ := insertAndIndex_reuse S b k sm0 hmem hre hnone
    rw [hscan] at hmain
    simp only [] at hmain
    rw [hins] at hmain
    constructor
    · rw [hmain]
      simp only [Option.isSome_some, iff_true]
      exact ⟨(k, sm0), hmem, (fuzzyHit_iff b k).mp hhit⟩
    · intro sm S' hres
      rw [hmain] at hres
      injection hres with hres
      injection hres with hsm hS'
      subst hsm
      refine ⟨⟨k, hmem, (fuzzyHit_iff b k).mp hhit⟩, ?_, ?_⟩
      · rw [← hS']
        exact alookup_aset_self S.bytecodeToSourceMaps b sm0
      · have hlook : alookup S'.bytecodeToSourceMaps b = some sm0 := by
          rw [← hS']
          exact alookup_aset_self S.bytecodeToSourceMaps b sm0
        unfold bytecodeToSourceMap
        rw [hlook]

/-- Witness for C5: a deployed bytecode differing from the known one only
at its zero nibbles resolves successfully. -/
theorem c5_witness : (bytecodeToSourceMap exFuzzySources exFuzzyB).isSome :=
  (c5_fuzzy_resolution exFuzzySources exFuzzyB rfl (by decide)).1.mp
    ⟨(exFuzzyK, exFuzzySm), by decide, Or.inl ⟨by decide, by decide⟩⟩

/-! ## Claim C10 -/

theorem alookup_eq_none_of_keys {α β : Type} [DecidableEq α] (m : List (α × β)) (k : α)
    (h : ∀ p ∈ m, p.1 ≠ k) : alookup m k = none := by
  induction m with
  | nil => rfl
  | cons hd tl ih =>
    obtain ⟨k0, v0⟩ := hd
    have hk0 : k0 ≠ k := h (k0, v0) (by simp)
    rw [alookup, if_neg (fun he => hk0 he.symm)]
    exact ih (fun p hp => h p (by simp [hp]))

theorem mem_aset {α β : Type} [DecidableEq α] (m : List (α × β)) (k : α) (v : β)
    (p : α × β) (h : p ∈ aset m k v) : p.1 = k ∨ p ∈ m := by
  induction m with
  | nil =>
    simp [aset] at h
    subst h
    left; rfl
  | cons hd tl ih =>
    obtain ⟨k0, v0⟩ := hd
    unfold aset at h
    by_cases h0 : k = k0
    · rw [if_pos h0] at h
      rcases (by simpa using h : p = (k0, v) ∨ p ∈ tl) with he | ht
      · subst he; left; exact h0.symm
      · right; simp [ht]
    · rw [if_neg h0] at h
      rcases (by simpa using h : p = (k0, v0) ∨ p ∈ aset tl k v) with he | ht
      · subst he; right; simp
      · rcases ih ht with hk | hm
        · left; exact hk
        · right; simp [hm]

theorem buildA2B_null (getCode : List Char → List Char) (info : TraceInfo)
    (logs : List TaggedLog) (acc m : List (List Char × List Char)) (inp : List Char)
    (hinp : info.txData.input = some inp)
    (haddr : ∀ t ∈ logs, ∀ a, t.addr? = some a → a ≠ ("null".data))
    (hbase : (∃ t ∈ logs, t.addr? = none) ∨
       alookup acc ("null".data) = some (inp.drop 2))
    (h : buildAddressToBytecodes getCode info logs acc = some m) :
    alookup m ("null".data) = some (inp.drop 2) := by
  induction logs generalizing acc with
  | nil =>
    rcases hbase with ⟨t, ht, _⟩ | hacc
    · cases ht
    · injection h with h1
      subst h1
      exact hacc
  | cons t rest ih =>
    unfold buildAddressToBytecodes at h
    cases hta : t.addr? with
    | none =>
      rw [hta, hinp] at h
      exact ih _ (fun s hs a ha => haddr s (by simp [hs]) a ha)
        (Or.inr (alookup_aset_self acc ("null".data) (inp.drop 2))) h
    | some address =>
      have hne : address ≠ ("null".data) := haddr t (by simp) address hta
      have hbase' : (∃ s ∈ rest, s.addr? = none) ∨
          alookup acc ("null".data) = some (inp.drop 2) := by
        rcases hbase with ⟨s, hs, hsa⟩ | hacc
        · rcases (by simpa using hs : s = t ∨ s ∈ rest) with he | hr
          · subst he; rw [hta] at hsa; cases hsa
          · exact Or.inl ⟨s, hr, hsa⟩
        · exact Or.inr hacc
      rw [hta] at h
      simp only [] at h
      have hrec := fun acc' hb hh => ih acc'
        (fun s hs a ha => haddr s (by simp [hs]) a ha) hb hh
      cases hl : alookup acc address with
      | some existing =>
        rw [hl] at h
        simp only [] at h
        by_cases hemp : existing = []
        · rw [if_pos hemp] at h
          refine hrec _ ?_ h
          rcases hbase' with hx | hacc
          · exact Or.inl hx
          · exact Or.inr (by rw [alookup_aset_ne _ _ _ _ (fun he => hne he.symm)]; exact hacc)
        · rw [if_neg hemp] at h
          exact hrec _ hbase' h
      | none =>
        rw [hl] at h
        simp only [] at h
        refine hrec _ ?_ h
        rcases hbase' with hx | hacc
        · exact Or.inl hx
        · exact Or.inr (by rw [alookup_aset_ne _ _ _ _ (fun he => hne he.symm)]; exact hacc)

theorem bytecodeToSourceMap_a2b (S : Sources) (b : List Char) (sm : SourceMapT) (S' : Sources)
    (h : bytecodeToSourceMap S b = some (sm, S')) :
    S'.addressToBytecodes = S.addressToBytecodes := by
  unfold bytecodeToSourceMap at h
  cases hx : alookup S.bytecodeToSourceMaps b with
  | some sm0 =>
    rw [hx] at h
    injection h with h1
    injection h1 with h1 h2
    rw [← h2]
  | none =>
    rw [hx] at h
    cases hscan : scanFuzzy b S.bytecodeToSourceMaps with
    | none => rw [hscan] at h; cases h
    | some pr =>
      obtain ⟨k, sm0⟩ := pr
      rw [hscan] at h
      simp only [] at h
      cases hins : insertAndIndex S b sm0 with
      | none => rw [hins] at h; cases h
      | some S'' =>
        rw [hins] at h
        injection h with h1
        injection h1 with h1 h2
        subst h2
        unfold insertAndIndex indexBytecode at hins
        cases hlook : alookup
            (aset S.bytecodeToSourceMaps b sm0) b with
        | none => rw [hlook] at hins; cases hins
        | some smx =>
          rw [hlook] at hins
          simp only [] at hins
          cases hidx : indexSrcs
              { si2p := (alookup S.bytecodeAndIndexToPath b).getD [],
                p2cs := S.pathToCompilerSources, unique := S.unique }
              smx.compilerSources with
          | none => rw [hidx] at hins; cases hins
          | some st =>
            rw [hidx] at hins
            injection hins with h3
            rw [← h3]

theorem stepLog_a2b (cov : CovTables) (R : Report) (S : Sources) (t : TaggedLog)
    (R' : Report) (S' : Sources) (h : stepLog cov R S t = some (R', S')) :
    S'.addressToBytecodes = S.addressToBytecodes := by
  unfold stepLog logIncs at h
  cases hrb : resolvedBytecode S t with
  | none => rw [hrb] at h; cases h
  | some b =>
    rw [hrb] at h
    simp only [] at h
    cases hbs : bytecodeToSourceMap S b with
    | none => rw [hbs] at h; simp only [] at h; cases h
    | some pr =>
      obtain ⟨sm, S1⟩ := pr
      rw [hbs] at h
      simp only [] at h
      cases hincs : incsOf cov S1.bytecodeAndIndexToPath sm t.log with
      | none => rw [hincs] at h; simp only [] at h; cases h
      | some incs =>
        rw [hincs] at h
        simp only [] at h
        cases happ : applyIncs R incs with
        | none => rw [happ] at h; simp only [] at h; cases h
        | some R2 =>
          rw [happ] at h
          injection h with h1
          injection h1 with h1 h2
          rw [← h2]
          exact bytecodeToSourceMap_a2b S b sm S1 hbs

/-- Claim C10 (confirmed): for a creation transaction the trace stores the
input bytecode under the literal key `'null'`, while `addressToBytecode`
with the creation frame's `undefined` address looks up the different key
`'undefined'` and throws whenever no such key exists — also after
`loadAddresses` merges any map without an `'undefined'` key — and hence
`Coverage.report` fails on any log list containing a creation-frame log. -/
theorem c10_null_vs_undefined :
    ("null".data ≠ "undefined".data) ∧
    (∀ getCode info logs m inp,
       info.txData.input = some inp →
       (∀ t ∈ logs, ∀ a, t.addr? = some a → a ≠ ("null".data)) →
       (∃ t ∈ logs, t.addr? = none) →
       buildAddressToBytecodes getCode info logs [] = some m →
       alookup m ("null".data) = some (inp.drop 2)) ∧
    (∀ S : Sources, (∀ p ∈ S.addressToBytecodes, p.1 ≠ ("undefined".data)) →
       addressToBytecode S none = none) ∧
    (∀ S : Sources, ∀ m, (∀ p ∈ S.addressToBytecodes, p.1 ≠ ("undefined".data)) →
       (∀ p ∈ m, lowerL p.1 ≠ ("undefined".data)) →
       addressToBytecode (loadAddresses S m) none = none) ∧
    (∀ cov logs R S t, t ∈ logs → t.tag = .address none →
       (∀ p ∈ S.addressToBytecodes, p.1 ≠ ("undefined".data)) →
       reportFn cov logs R S = none) := by
  have hatb : ∀ S : Sources, (∀ p ∈ S.addressToBytecodes, p.1 ≠ ("undefined".data)) →
      addressToBytecode S none = none := by
    intro S h
    unfold addressToBytecode
    exact alookup_eq_none_of_keys S.addressToBytecodes _ h
  have hload : ∀ (acc : List (List Char × List Char)) (m : List (List Char × List Char)),
      (∀ p ∈ acc, p.1 ≠ ("undefined".data)) →
      (∀ p ∈ m, lowerL p.1 ≠ ("undefined".data)) →
      ∀ p ∈ m.foldl (fun acc q => aset acc (lowerL q.1) q.2) acc,
        p.1 ≠ ("undefined".data) := by
    intro acc m
    induction m generalizing acc with
    | nil => intro h1 _ p hp; exact h1 p hp
    | cons q rest ih =>
      intro h1 h2 p hp
      refine ih (aset acc (lowerL q.1) q.2) ?_ (fun s hs => h2 s (by simp [hs])) p hp
      intro s hs
      rcases mem_aset acc (lowerL q.1) q.2 s hs with hk | hm
      · rw [hk]; exact h2 q (by simp)
      · exact h1 s hm
  refine ⟨by decide,
    fun getCode info logs m inp hinp haddr hex h =>
      buildA2B_null getCode info logs [] m inp hinp haddr (Or.inl hex) h,
    hatb,
    fun S m h1 h2 => hatb (loadAddresses S m) (hload S.addressToBytecodes m h1 h2),
    ?_⟩
  intro cov logs R S t hmem hta hkeys
  induction logs generalizing R S with
  | nil => cases hmem
  | cons l rest ih =>
    rcases (by simpa using hmem : t = l ∨ t ∈ rest) with he | hr
    · subst he
      have hfail : stepLog cov R S t = none := by
        unfold stepLog logIncs resolvedBytecode
        rw [hta]
        simp only []
        rw [hatb S hkeys]
      unfold reportFn
      rw [hfail]
    · cases hstep : stepLog cov R S l with
      | none =>
        unfold reportFn
        rw [hstep]
      | some pr =>
        obtain ⟨R', S'⟩ := pr
        have hkeys' : ∀ p ∈ S'.addressToBytecodes, p.1 ≠ ("undefined".data) := by
          rw [stepLog_a2b cov R S l R' S' hstep]
          exact hkeys
        unfold reportFn
        rw [hstep]
        exact ih R' S' hr hkeys'

/-- Witness for C10: `report` on a creation-frame log against the concrete
sources fails. -/
theorem c10_witness : reportFn exCov [exNullLog] (freshReport exCov) exSources = none :=
  c10_null_vs_undefined.2.2.2.2 exCov [exNullLog] (freshReport exCov) exSources exNullLog
    (by simp) (by rfl) (by simp [exSources])

/-! ## Claim C9 -/

theorem alookup_aset_isSome {α β : Type} [DecidableEq α] (m : List (α × β)) (k k' : α)
    (v : β) : (alookup (aset m k v) k').isSome ↔ (k' = k ∨ (alookup m k').isSome) := by
  by_cases h : k' = k
  · subst h
    simp [alookup_aset_self]
  · rw [alookup_aset_ne m k k' v h]
    simp [h]

theorem sigCount_pos_iff (syn : SynTable) (fs : List Feature) (n : Nat)
    (h : sigCount syn fs = some n) :
    (0 < n ↔ ∃ f ∈ fs, significantF syn f = some true) := by
  induction fs generalizing n with
  | nil =>
    injection h with h1
    subst h1
    simp
  | cons feat rest ih =>
    unfold sigCount at h
    cases hs : significantF syn feat with
    | none => rw [hs] at h; cases h
    | some tru =>
      rw [hs] at h
      simp only [] at h
      cases hr : sigCount syn rest with
      | none => rw [hr] at h; cases h
      | some nr =>
        rw [hr] at h
        simp only [] at h
        injection h with h1
        subst h1
        cases tru with
        | true =>
          rw [if_pos rfl]
          constructor
          · intro _
            exact ⟨feat, by simp, hs⟩
          · intro _
            omega
        | false =>
          rw [if_neg (by decide : ¬ false = true)]
          rw [ih nr hr]
          constructor
          · intro ⟨f, hf, hsig⟩
            exact ⟨f, by simp [hf], hsig⟩
          · intro ⟨f, hf, hsig⟩
            rcases (by simpa using hf : f = feat ∨ f ∈ rest) with he | hm
            · subst he
              rw [hs] at hsig
              injection hsig with h2
              cases h2
            · exact ⟨f, hm, hsig⟩

theorem filteredL_keys (syn : SynTable) (origL : List (Nat × Counter))
    (featList : List (List Feature)) (acc : List (Option Nat × Option Counter))
    (lF : List (Option Nat × Option Counter))
    (h : filteredL syn origL featList acc = some lF) (line : Nat) :
    (alookup lF (some line)).isSome ↔
      ((alookup acc (some line)).isSome ∨
        ∃ fs ∈ featList, headLineKey fs = some line ∧
          ∃ f ∈ fs, significantF syn f = some true) := by
  induction featList generalizing acc with
  | nil =>
    injection h with h1
    subst h1
    simp
  | cons fs rest ih =>
    unfold filteredL at h
    cases hs : sigCount syn fs with
    | none => rw [hs] at h; cases h
    | some n =>
      rw [hs] at h
      simp only [] at h
      by_cases hn : n > 0
      · rw [if_pos hn] at h
        rw [ih _ h, alookup_aset_isSome]
        constructor
        · intro hx
          rcases hx with (hk | hacc) | ⟨fs', hfs', hhead, hf⟩
          · exact Or.inr ⟨fs, by simp, hk.symm, (sigCount_pos_iff syn fs n hs).mp hn⟩
          · exact Or.inl hacc
          · exact Or.inr ⟨fs', by simp [hfs'], hhead, hf⟩
        · intro hx
          rcases hx with hacc | ⟨fs', hfs', hhead, hf⟩
          · exact Or.inl (Or.inr hacc)
          · rcases (by simpa using hfs' : fs' = fs ∨ fs' ∈ rest) with he | hm
            · subst he
              exact Or.inl (Or.inl hhead.symm)
            · exact Or.inr ⟨fs', hm, hhead, hf⟩
      · rw [if_neg hn] at h
        rw [ih _ h]
        constructor
        · intro hx
          rcases hx with hacc | ⟨fs', hfs', hhead, hf⟩
          · exact Or.inl hacc
          · exact Or.inr ⟨fs', by simp [hfs'], hhead, hf⟩
        · intro hx
          rcases hx with hacc | ⟨fs', hfs', hhead, hf⟩
          · exact Or.inl hacc
          · rcases (by simpa using hfs' : fs' = fs ∨ fs' ∈ rest) with he | hm
            · subst he
              have := (sigCount_pos_iff syn fs' n hs).mpr hf
              exact absurd this hn
            · exact Or.inr ⟨fs', hm, hhead, hf⟩

/-- Claim C9 (confirmed): the filtered report contains no path starting
with `#` and none containing `:`; for each retained path the rewritten `l`
has an entry for a line iff some source byte whose first (line) feature
names that line carries at least one significant feature (branch, non-skip
function, or non-skip statement), and the `branchMap`, `fnMap`,
`statementMap`, `b`, `f` and `s` fields (and the `path` field) are those of
the input stats. -/
theorem c9_filtered_report (cov : CovTables) (R : Report)
    (F : List (List Char × FilteredStats)) (h : filteredReport cov R = some F) :
    ∀ p st', alookup F p = some st' →
      startsC '#' p = false ∧ containsC ':' p = false ∧
      ∃ st syn, (p, st) ∈ R ∧ alookup cov.pathToSyn p = some syn ∧
        st'.path = st.path ∧ st'.branchMap = st.branchMap ∧ st'.fnMap = st.fnMap ∧
        st'.statementMap = st.statementMap ∧ st'.b = st.b ∧ st'.f = st.f ∧
        st'.s = st.s ∧
        (∀ line : Nat, (alookup st'.lF (some line)).isSome ↔
          ∃ fs ∈ syn.features, headLineKey fs = some line ∧
            ∃ f ∈ fs, (f matches Feature.b _ _) ∨
              (∃ id e, f = Feature.f id ∧ alookup syn.fnMap id = some e ∧ e.skip = false) ∨
              (∃ id e, f = Feature.s id ∧ alookup syn.statementMap id = some e ∧
                 e.skip = false)) := by
  have hsig : ∀ syn : SynTable, ∀ f : Feature, significantF syn f = some true ↔
      ((f matches Feature.b _ _) ∨
       (∃ id e, f = Feature.f id ∧ alookup syn.fnMap id = some e ∧ e.skip = false) ∨
       (∃ id e, f = Feature.s id ∧ alookup syn.statementMap id = some e ∧
          e.skip = false)) := by
    intro syn f
    cases f with
    | l n => simp [significantF]
    | b id alt => simp [significantF]
    | f id =>
      cases he : alookup syn.fnMap id with
      | none => simp [significantF, he]
      | some e =>
        cases hskip : e.skip <;> simp [significantF, he, hskip]
    | s id =>
      cases he : alookup syn.statementMap id with
      | none => simp [significantF, he]
      | some e =>
        cases hskip : e.skip <;> simp [significantF, he, hskip]
  induction R generalizing F with
  | nil =>
    injection h with h1
    subst h1
    intro p st' hp
    cases hp
  | cons entry rest ih =>
    obtain ⟨path, st⟩ := entry
    unfold filteredReport at h
    by_cases hh : startsC '#' path = true
    · rw [if_pos hh] at h
      intro p st' hp
      obtain ⟨h1, h2, st0, syn, hmem, hrest⟩ := ih F h p st' hp
      exact ⟨h1, h2, st0, syn, by simp [hmem], hrest⟩
    · rw [if_neg hh] at h
      by_cases hc : containsC ':' path = true
      · rw [if_pos hc] at h
        intro p st' hp
        obtain ⟨h1, h2, st0, syn, hmem, hrest⟩ := ih F h p st' hp
        exact ⟨h1, h2, st0, syn, by simp [hmem], hrest⟩
      · rw [if_neg hc] at h
        cases hsyn : alookup cov.pathToSyn path with
        | none => rw [hsyn] at h; cases h
        | some syn =>
          rw [hsyn] at h
          simp only [] at h
          cases hfl : filteredL syn st.l syn.features [] with
          | none => rw [hfl] at h; cases h
          | some lF =>
            rw [hfl] at h
            simp only [] at h
            cases hfr : filteredReport cov rest with
            | none => rw [hfr] at h; cases h
            | some more =>
              rw [hfr] at h
              injection h with h1
              subst h1
              intro p st' hp
              unfold alookup at hp
              by_cases hpp : p = path
              · rw [if_pos hpp] at hp
                injection hp with hp
                subst hp
                subst hpp
                refine ⟨by simpa using hh, by simpa using hc,
                  st, syn, by simp, hsyn, rfl, rfl, rfl, rfl, rfl, rfl, rfl, ?_⟩
                intro line
                rw [filteredL_keys syn st.l syn.features [] lF hfl line]
                simp only [alookup, Option.isSome_none]
                constructor
                · intro hx
                  rcases hx with hfalse | ⟨fs, hfs, hhead, f, hf, hsf⟩
                  · cases hfalse
                  · exact ⟨fs, hfs, hhead, f, hf, (hsig syn f).mp hsf⟩
                · intro ⟨fs, hfs, hhead, f, hf, hsf⟩
                  exact Or.inr ⟨fs, hfs, hhead, f, hf, (hsig syn f).mpr hsf⟩
              · rw [if_neg hpp] at hp
                obtain ⟨h1, h2, st0, syn0, hmem, hrest⟩ := ih more hfr p st' hp
                exact ⟨h1, h2, st0, syn0, by simp [hmem], hrest⟩

/-- Witness for C9 at a concrete one-path report: the single path survives
the filter and is not a generated or disambiguated path. -/
theorem c9_witness :
    startsC '#' exPath = false ∧ containsC ':' exPath = false ∧
    (filteredReport exCov (freshReport exCov)).isSome := by
  have hres := c9_filtered_report exCov (freshReport exCov)
    ((filteredReport exCov (freshReport exCov)).getD []) rfl exPath
  cases hlook : alookup ((filteredReport exCov (freshReport exCov)).getD []) exPath with
  | none => exact absurd hlook (by decide)
  | some st' =>
    obtain ⟨h1, h2, _⟩ := hres st' hlook
    exact ⟨h1, h2, by decide⟩

/-! ## Claim C6 -/

theorem SExt_refl (S : Sources) : SExt S S :=
  ⟨rfl, fun _ _ h => h, fun _ _ h => h⟩

theorem SExt_trans {S T U : Sources} (h1 : SExt S T) (h2 : SExt T U) : SExt S U :=
  ⟨h2.1.trans h1.1,
   fun b v hv => h2.2.1 b v (h1.2.1 b v hv),
   fun b v hv => h2.2.2 b v (h1.2.2 b v hv)⟩

theorem alookup_mem {α β : Type} [DecidableEq α] (m : List (α × β)) (k : α) (v : β)
    (h : alookup m k = some v) : (k, v) ∈ m := by
  induction m with
  | nil => cases h
  | cons hd tl ih =>
    obtain ⟨k0, v0⟩ := hd
    unfold alookup at h
    by_cases hk : k = k0
    · rw [if_pos hk] at h
      injection h with h1
      subst hk; subst h1
      simp
    · rw [if_neg hk] at h
      simp [ih h]

theorem invS_spec (S : Sources) (h : invS S = true) (b : List Char)
    (v : List (Int × List Char)) (hb : alookup S.bytecodeAndIndexToPath b = some v) :
    (alookup S.bytecodeToSourceMaps b).isSome := by
  exact List.all_eq_true.mp h (b, v) (alookup_mem _ _ _ hb)

theorem alookup_aset_preserve {α β : Type} [DecidableEq α] (m : List (α × β))
    (k k' : α) (v v' : β) (h : alookup m k' = some v') (hk : alookup m k = none) :
    alookup (aset m k v) k' = some v' := by
  by_cases he : k' = k
  · subst he
    rw [h] at hk
    cases hk
  · rw [alookup_aset_ne m k k' v he]
    exact h

theorem alookup_aset_isSome_of {α β : Type} [DecidableEq α] (m : List (α × β))
    (k k' : α) (v : β) (h : (alookup m k').isSome) : (alookup (aset m k v) k').isSome := by
  by_cases he : k' = k
  · subst he
    simp [alookup_aset_self]
  · rw [alookup_aset_ne m k k' v he]
    exact h

theorem bytecodeToSourceMap_step (S : Sources) (b : List Char) (sm : SourceMapT)
    (S' : Sources) (hinv : invS S = true)
    (h : bytecodeToSourceMap S b = some (sm, S')) :
    alookup S'.bytecodeToSourceMaps b = some sm ∧ SExt S S' ∧ invS S' = true := by
  unfold bytecodeToSourceMap at h
  cases hx : alookup S.bytecodeToSourceMaps b with
  | some sm0 =>
    rw [hx] at h
    injection h with h1
    injection h1 with h1 h2
    subst h1; subst h2
    exact ⟨hx, SExt_refl S, hinv⟩
  | none =>
    rw [hx] at h
    cases hscan : scanFuzzy b S.bytecodeToSourceMaps with
    | none => rw [hscan] at h; cases h
    | some pr =>
      obtain ⟨k, sm0⟩ := pr
      rw [hscan] at h
      simp only [] at h
      cases hins : insertAndIndex S b sm0 with
      | none => rw [hins] at h; cases h
      | some S1 =>
        rw [hins] at h
        injection h with h1
        injection h1 with h1 h2
        subst h1; subst h2
        -- unpack the insertion
        unfold insertAndIndex indexBytecode at hins
        have hset : alookup (aset S.bytecodeToSourceMaps b sm0) b = some sm0 :=
          alookup_aset_self _ _ _
        rw [show aset S.bytecodeToSourceMaps b sm0 =
          ({ S with bytecodeToSourceMaps := aset S.bytecodeToSourceMaps b sm0
           }).bytecodeToSourceMaps from rfl] at hset
        rw [hset] at hins
        simp only [] at hins
        cases hidx : indexSrcs
            { si2p := (alookup S.bytecodeAndIndexToPath b).getD [],
              p2cs := S.pathToCompilerSources, unique := S.unique }
            sm0.compilerSources with
        | none => rw [hidx] at hins; cases hins
        | some st =>
          rw [hidx] at hins
          injection hins with h3
          have hbi2p_none : alookup S.bytecodeAndIndexToPath b = none := by
            cases hbb : alookup S.bytecodeAndIndexToPath b with
            | none => rfl
            | some v =>
              have := invS_spec S hinv b v hbb
              rw [hx] at this
              cases this
          subst h3
          refine ⟨alookup_aset_self _ _ _, ⟨rfl, ?_, ?_⟩, ?_⟩
          · intro b0 v0 hv0
            exact alookup_aset_preserve _ _ _ _ _ hv0 hx
          · intro b0 v0 hv0
            exact alookup_aset_preserve _ _ _ _ _ hv0 hbi2p_none
          · unfold invS
            rw [List.all_eq_true]
            intro p hp
            simp only [] at hp
            rw [aset_eq_append _ _ _ hbi2p_none] at hp
            rcases List.mem_append.mp hp with hold | hnew
            · have hv := List.all_eq_true.mp hinv p hold
              exact alookup_aset_isSome_of _ _ _ _ hv
            · have : p = (b, st.si2p) := by simpa using hnew
              subst this
              simp [alookup_aset_self]

theorem resolvedBytecode_congr (S T : Sources) (t : TaggedLog)
    (h : T.addressToBytecodes = S.addressToBytecodes) :
    resolvedBytecode T t = resolvedBytecode S t := by
  unfold resolvedBytecode addressToBytecode
  rw [h]

theorem incsOf_ext (cov : CovTables) (S T : Sources) (sm : SourceMapT) (log : StructLog)
    (incs : List IncKey)
    (hext : ∀ x v, alookup S.bytecodeAndIndexToPath x = some v →
       alookup T.bytecodeAndIndexToPath x = some v)
    (h : incsOf cov S.bytecodeAndIndexToPath sm log = some incs) :
    incsOf cov T.bytecodeAndIndexToPath sm log = some incs := by
  unfold incsOf at h ⊢
  cases hr : sm.pcToRange log.pc with
  | none =>
    rw [hr] at h
    exact absurd h (by simp)
  | some range =>
    rw [hr] at h
    simp only [] at h ⊢
    by_cases hg : jGt0 range.length = true
    · rw [if_pos hg] at h ⊢
      cases hcsp : compilerSourcePathF S.bytecodeAndIndexToPath sm.bytecode range.index with
      | none => rw [hcsp] at h; cases h
      | some path =>
        rw [hcsp] at h
        have hT : compilerSourcePathF T.bytecodeAndIndexToPath sm.bytecode range.index
            = some path := by
          unfold compilerSourcePathF at hcsp ⊢
          cases hb : alookup S.bytecodeAndIndexToPath sm.bytecode with
          | none => rw [hb] at hcsp; cases hcsp
          | some tbl =>
            rw [hb] at hcsp
            rw [hext _ _ hb]
            exact hcsp
        rw [hT]
        exact h
    · rw [if_neg hg] at h ⊢
      exact h

theorem logIncs_step (cov : CovTables) (S : Sources) (t : TaggedLog)
    (incs : List IncKey) (S' : Sources) (hinv : invS S = true)
    (h : logIncs cov S t = some (incs, S')) :
    SExt S S' ∧ invS S' = true ∧ logIncs cov S' t = some (incs, S') := by
  unfold logIncs at h
  cases hrb : resolvedBytecode S t with
  | none => rw [hrb] at h; cases h
  | some b =>
    rw [hrb] at h
    simp only [] at h
    cases hbs : bytecodeToSourceMap S b with
    | none => rw [hbs] at h; cases h
    | some pr =>
      obtain ⟨sm, S1⟩ := pr
      rw [hbs] at h
      simp only [] at h
      cases hio : incsOf cov S1.bytecodeAndIndexToPath sm t.log with
      | none => rw [hio] at h; cases h
      | some incs0 =>
        rw [hio] at h
        injection h with h1
        injection h1 with h1 h2
        subst h1; subst h2
        obtain ⟨hlook, hext, hinv'⟩ := bytecodeToSourceMap_step S b sm S1 hinv hbs
        refine ⟨hext, hinv', ?_⟩
        unfold logIncs
        rw [resolvedBytecode_congr S S1 t hext.1, hrb]
        simp only []
        have hbs' : bytecodeToSourceMap S1 b = some (sm, S1) := by
          unfold bytecodeToSourceMap
          rw [hlook]
        rw [hbs']
        simp only []
        rw [hio]

theorem bytecodeToSourceMap_self (S : Sources) (b : List Char) (sm : SourceMapT)
    (h : bytecodeToSourceMap S b = some (sm, S)) :
    alookup S.bytecodeToSourceMaps b = some sm := by
  unfold bytecodeToSourceMap at h
  cases hx : alookup S.bytecodeToSourceMaps b with
  | some sm0 =>
    rw [hx] at h
    injection h with h1
    injection h1 with h1 h2
    subst h1
    rfl
  | none =>
    rw [hx] at h
    cases hscan : scanFuzzy b S.bytecodeToSourceMaps with
    | none => rw [hscan] at h; cases h
    | some pr =>
      obtain ⟨k, sm0⟩ := pr
      rw [hscan] at h
      simp only [] at h
      cases hins : insertAndIndex S b sm0 with
      | none => rw [hins] at h; cases h
      | some S1 =>
        rw [hins] at h
        injection h with h1
        injection h1 with h1 h2
        subst h1
        -- the inserted state extends the bytecode map by a fresh key, so it
        -- cannot equal the original state
        unfold insertAndIndex indexBytecode at hins
        have hset : alookup (aset S.bytecodeToSourceMaps b sm0) b = some sm0 :=
          alookup_aset_self _ _ _
        rw [show aset S.bytecodeToSourceMaps b sm0 =
          ({ S with bytecodeToSourceMaps := aset S.bytecodeToSourceMaps b sm0
           }).bytecodeToSourceMaps from rfl] at hset
        rw [hset] at hins
        simp only [] at hins
        cases hidx : indexSrcs
            { si2p := (alookup S.bytecodeAndIndexToPath b).getD [],
              p2cs := S.pathToCompilerSources, unique := S.unique }
            sm0.compilerSources with
        | none => rw [hidx] at hins; cases hins
        | some st =>
          rw [hidx] at hins
          injection hins with h3
          have hb2s := congrArg Sources.bytecodeToSourceMaps h3
          simp only [] at hb2s
          rw [h2] at hb2s
          rw [aset_eq_append _ _ _ hx] at hb2s
          have := congrArg List.length hb2s
          simp at this

theorem logIncs_stable (cov : CovTables) (S : Sources) (t : TaggedLog)
    (incs : List IncKey) (h : logIncs cov S t = some (incs, S)) (T : Sources)
    (hext : SExt S T) : logIncs cov T t = some (incs, T) := by
  unfold logIncs at h
  cases hrb : resolvedBytecode S t with
  | none => rw [hrb] at h; cases h
  | some b =>
    rw [hrb] at h
    simp only [] at h
    cases hbs : bytecodeToSourceMap S b with
    | none => rw [hbs] at h; cases h
    | some pr =>
      obtain ⟨sm, S1⟩ := pr
      rw [hbs] at h
      simp only [] at h
      cases hio : incsOf cov S1.bytecodeAndIndexToPath sm t.log with
      | none => rw [hio] at h; cases h
      | some incs0 =>
        rw [hio] at h
        injection h with h1
        injection h1 with h1 h2
        subst h1; subst h2
        have hself : alookup S1.bytecodeToSourceMaps b = some sm :=
          bytecodeToSourceMap_self S1 b sm hbs
        unfold logIncs
        rw [resolvedBytecode_congr S1 T t hext.1, hrb]
        simp only []
        have hbs' : bytecodeToSourceMap T b = some (sm, T) := by
          unfold bytecodeToSourceMap
          rw [hext.2.1 b sm hself]
        rw [hbs']
        simp only []
        rw [incsOf_ext cov S1 T sm t.log incs0 hext.2.2 hio]

theorem incsTrace_settled (cov : CovTables) (logs : List TaggedLog) :
    ∀ S DS S', invS S = true → incsTrace cov S logs = some (DS, S') →
      SExt S S' ∧ invS S' = true ∧ incsTrace cov S' logs = some (DS, S') := by
  induction logs with
  | nil =>
    intro S DS S' hinv h
    injection h with h1
    injection h1 with hDS hS
    subst hDS; subst hS
    exact ⟨SExt_refl S, hinv, rfl⟩
  | cons t rest ih =>
    intro S DS S' hinv h
    unfold incsTrace at h
    cases hl : logIncs cov S t with
    | none => rw [hl] at h; cases h
    | some pr =>
      obtain ⟨incs, S1⟩ := pr
      rw [hl] at h
      simp only [] at h
      cases htr : incsTrace cov S1 rest with
      | none => rw [htr] at h; cases h
      | some pr2 =>
        obtain ⟨DS1, S2⟩ := pr2
        rw [htr] at h
        injection h with h1
        injection h1 with hDS hS2
        subst hDS; subst hS2
        obtain ⟨hext1, hinv1, hsettle1⟩ := logIncs_step cov S t incs S1 hinv hl
        obtain ⟨hext2, hinv2, htr2⟩ := ih S1 DS1 S2 hinv1 htr
        refine ⟨SExt_trans hext1 hext2, hinv2, ?_⟩
        have hstable := logIncs_stable cov S1 t incs hsettle1 S2 hext2
        unfold incsTrace
        rw [hstable]
        simp only []
        rw [htr2]

theorem reportFn_to_trace (cov : CovTables) (logs : List TaggedLog) :
    ∀ R S R' S', reportFn cov logs R S = some (R', S') →
      ∃ DS, incsTrace cov S logs = some (DS, S') ∧ applyIncsList R DS = some R' := by
  induction logs with
  | nil =>
    intro R S R' S' h
    injection h with h1
    injection h1 with hR hS
    subst hR; subst hS
    exact ⟨[], rfl, rfl⟩
  | cons t rest ih =>
    intro R S R' S' h
    unfold reportFn at h
    cases hst : stepLog cov R S t with
    | none => rw [hst] at h; cases h
    | some pr =>
      obtain ⟨R1, S1⟩ := pr
      rw [hst] at h
      simp only [] at h
      obtain ⟨DS, htr, happ⟩ := ih R1 S1 R' S' h
      unfold stepLog at hst
      cases hl : logIncs cov S t with
      | none => rw [hl] at hst; cases hst
      | some pr2 =>
        obtain ⟨incs, S1'⟩ := pr2
        rw [hl] at hst
        simp only [] at hst
        cases ha : applyIncs R incs with
        | none => rw [ha] at hst; cases hst
        | some R1' =>
          rw [ha] at hst
          injection hst with h2
          injection h2 with hR1 hS1
          subst hR1; subst hS1
          refine ⟨incs :: DS, ?_, ?_⟩
          · unfold incsTrace
            rw [hl]
            simp only []
            rw [htr]
          · unfold applyIncsList
            rw [ha]
            exact happ

theorem trace_to_reportFn (cov : CovTables) (logs : List TaggedLog) :
    ∀ R S DS S' R', incsTrace cov S logs = some (DS, S') →
      applyIncsList R DS = some R' → reportFn cov logs R S = some (R', S') := by
  induction logs with
  | nil =>
    intro R S DS S' R' h happ
    injection h with h1
    injection h1 with hDS hS
    subst hDS; subst hS
    injection happ with h2
    subst h2
    rfl
  | cons t rest ih =>
    intro R S DS S' R' h happ
    unfold incsTrace at h
    cases hl : logIncs cov S t with
    | none => rw [hl] at h; cases h
    | some pr =>
      obtain ⟨incs, S1⟩ := pr
      rw [hl] at h
      simp only [] at h
      cases htr : incsTrace cov S1 rest with
      | none => rw [htr] at h; cases h
      | some pr2 =>
        obtain ⟨DS1, S2⟩ := pr2
        rw [htr] at h
        injection h with h1
        injection h1 with hDS hS2
        subst hDS; subst hS2
        unfold applyIncsList at happ
        cases ha : applyIncs R incs with
        | none => rw [ha] at happ; cases happ
        | some R1 =>
          rw [ha] at happ
          unfold reportFn stepLog
          rw [hl]
          simp only []
          rw [ha]
          simp only []
          exact ih R1 S1 DS1 S2 R' htr happ

theorem jsIncAt_self (m : List (Nat × Counter)) (n : Nat) :
    alookup (jsIncAt m n) n = some (jsIncC (alookup m n)) := by
  unfold jsIncAt
  cases hm : alookup m n with
  | none =>
    rw [alookup_append, hm]
    simp [jsIncC, alookup]
  | some c =>
    cases c with
    | none => simp [jsIncC, alookup_aset_self]
    | some v => simp [jsIncC, alookup_aset_self]

theorem jsIncAt_other (m : List (Nat × Counter)) (n n' : Nat) (h : n' ≠ n) :
    alookup (jsIncAt m n) n' = alookup m n' := by
  unfold jsIncAt
  cases hm : alookup m n with
  | none =>
    rw [alookup_append]
    cases hm' : alookup m n' with
    | some c => simp [Option.orElse]
    | none => simp [Option.orElse, alookup, h]
  | some c =>
    cases c with
    | none => simp [alookup_aset_ne m n n' _ h]
    | some v => simp [alookup_aset_ne m n n' _ h]

theorem counterAt_def (R : Report) (k : IncKey) :
    counterAt R k =
      (match alookup R k.path with
       | none => none
       | some st => statCounter st k) := by
  unfold counterAt statCounter
  cases alookup R k.path with
  | none => rfl
  | some st => cases k <;> rfl

theorem applyInc_counter (R : Report) (k : IncKey) (R' : Report)
    (h : applyInc R k = some R') :
    counterAt R' k = some (jsIncC (counterAt R k)) ∧
    ∀ k', k' ≠ k → counterAt R' k' = counterAt R k' := by
  unfold applyInc at h
  cases hp : alookup R k.path with
  | none => rw [hp] at h; cases h
  | some st =>
    rw [hp] at h
    simp only [] at h
    have hcur : counterAt R k = statCounter st k := by
      rw [counterAt_def, hp]
    -- the updated stats record and the key property it satisfies
    have hmain : ∃ st' : PathStats, R' = aset R k.path st' ∧
        statCounter st' k = some (jsIncC (statCounter st k)) ∧
        ∀ k', k' ≠ k → k'.path = k.path → statCounter st' k' = statCounter st k' := by
      cases k with
      | l p n =>
        simp only [] at h
        injection h with h1
        refine ⟨_, h1.symm, ?_, ?_⟩
        · show alookup (jsIncAt st.l n) n = _
          rw [jsIncAt_self]
          rfl
        · intro k' hk' hpp
          cases k' with
          | l p2 n2 =>
            show alookup (jsIncAt st.l n) n2 = alookup st.l n2
            refine jsIncAt_other st.l n n2 (fun he => hk' ?_)
            simp only [IncKey.path] at hpp
            rw [hpp, he]
          | b p2 id2 alt2 => rfl
          | f p2 id2 => rfl
          | s p2 id2 => rfl
      | b p id alt =>
        simp only [] at h
        cases hb : alookup st.b id with
        | none => rw [hb] at h; cases h
        | some inner =>
          rw [hb] at h
          injection h with h1
          refine ⟨_, h1.symm, ?_, ?_⟩
          · show (match alookup (aset st.b id (jsIncAt inner alt)) id with
              | none => none
              | some inner => alookup inner alt) = _
            rw [alookup_aset_self]
            simp only []
            rw [jsIncAt_self]
            show _ = some (jsIncC (match alookup st.b id with
              | none => none
              | some inner => alookup inner alt))
            rw [hb]
          · intro k' hk' hpp
            cases k' with
            | l p2 n2 => rfl
            | b p2 id2 alt2 =>
              show (match alookup (aset st.b id (jsIncAt inner alt)) id2 with
                | none => none
                | some inner => alookup inner alt2) = (match alookup st.b id2 with
                | none => none
                | some inner => alookup inner alt2)
              by_cases hid : id2 = id
              · subst hid
                rw [alookup_aset_self, hb]
                simp only []
                refine jsIncAt_other inner alt alt2 (fun he => hk' ?_)
                simp only [IncKey.path] at hpp
                rw [hpp, he]
              · rw [alookup_aset_ne st.b id id2 _ hid]
            | f p2 id2 => rfl
            | s p2 id2 => rfl
      | f p id =>
        simp only [] at h
        injection h with h1
        refine ⟨_, h1.symm, ?_, ?_⟩
        · show alookup (jsIncAt st.f id) id = _
          rw [jsIncAt_self]
          rfl
        · intro k' hk' hpp
          cases k' with
          | l p2 n2 => rfl
          | b p2 id2 alt2 => rfl
          | f p2 id2 =>
            show alookup (jsIncAt st.f id) id2 = alookup st.f id2
            refine jsIncAt_other st.f id id2 (fun he => hk' ?_)
            simp only [IncKey.path] at hpp
            rw [hpp, he]
          | s p2 id2 => rfl
      | s p id =>
        simp only [] at h
        injection h with h1
        refine ⟨_, h1.symm, ?_, ?_⟩
        · show alookup (jsIncAt st.s id) id = _
          rw [jsIncAt_self]
          rfl
        · intro k' hk' hpp
          cases k' with
          | l p2 n2 => rfl
          | b p2 id2 alt2 => rfl
          | f p2 id2 => rfl
          | s p2 id2 =>
            show alookup (jsIncAt st.s id) id2 = alookup st.s id2
            refine jsIncAt_other st.s id id2 (fun he => hk' ?_)
            simp only [IncKey.path] at hpp
            rw [hpp, he]
    obtain ⟨st', hR', hself, hother⟩ := hmain
    subst hR'
    constructor
    · rw [counterAt_def, alookup_aset_self]
      simp only []
      rw [hself, hcur]
    · intro k' hk'
      rw [counterAt_def, counterAt_def]
      by_cases hpp : k'.path = k.path
      · rw [hpp, alookup_aset_self, hp]
        simp only []
        exact hother k' hk' hpp
      · rw [alookup_aset_ne R k.path k'.path st' hpp]

theorem applyIncs_mono (D : List IncKey) : ∀ R R', applyIncs R D = some R' →
    ∀ k v, counterAt R k = some (some v) →
      ∃ w, counterAt R' k = some (some w) ∧ v ≤ w := by
  induction D with
  | nil =>
    intro R R' h k v hv
    injection h with h1
    subst h1
    exact ⟨v, hv, Nat.le_refl v⟩
  | cons k0 D' ih =>
    intro R R' h k v hv
    unfold applyIncs at h
    cases ha : applyInc R k0 with
    | none => rw [ha] at h; cases h
    | some R1 =>
      rw [ha] at h
      obtain ⟨hself, hother⟩ := applyInc_counter R k0 R1 ha
      by_cases hk : k = k0
      · subst hk
        have hnext : counterAt R1 k = some (some (v + 1)) := by
          rw [hself, hv]
          rfl
        obtain ⟨w, hw, hle⟩ := ih R1 R' h k (v + 1) hnext
        exact ⟨w, hw, by omega⟩
      · have hnext : counterAt R1 k = some (some v) := by
          rw [hother k hk]
          exact hv
        exact ih R1 R' h k v hnext

theorem jsAddCount_zero (oc : Option Counter) : jsAddCount oc 0 = oc := by
  unfold jsAddCount
  rw [if_pos rfl]

theorem jsAddCount_nan (c : Nat) : jsAddCount (some none) c = some none := by
  unfold jsAddCount
  by_cases hc : c = 0
  · rw [if_pos hc]
  · rw [if_neg hc]

theorem jsAddCount_absent (c : Nat) (hc : ¬ c = 0) :
    jsAddCount none c = some none := by
  unfold jsAddCount
  rw [if_neg hc]

theorem jsAddCount_num (n c : Nat) (hc : ¬ c = 0) :
    jsAddCount (some (some n)) c = some (some (n + c)) := by
  unfold jsAddCount
  rw [if_neg hc]

theorem jsAddCount_succ (oc : Option Counter) (c : Nat) :
    jsAddCount (some (jsIncC oc)) c = jsAddCount oc (c + 1) := by
  have hc1 : ¬ c + 1 = 0 := by omega
  unfold jsAddCount
  rw [if_neg hc1]
  by_cases hc : c = 0
  · rw [if_pos hc, hc]
    rcases oc with _ | (_ | n) <;> rfl
  · rw [if_neg hc]
    rcases oc with _ | (_ | n)
    · rfl
    · rfl
    · show some (some (n + 1 + c)) = some (some (n + (c + 1)))
      have harith : n + 1 + c = n + (c + 1) := by omega
      rw [harith]

/-- Applying a success-returning list of increments sets every counter cell
to its JS-accumulated value: numeric cells gain the key's multiplicity,
`NaN` cells stay `NaN`, and a missing cell hit at least once is created as
`NaN`. -/
theorem applyIncs_jscounts (D : List IncKey) : ∀ R R', applyIncs R D = some R' →
    ∀ k, counterAt R' k = jsAddCount (counterAt R k) (D.count k) := by
  induction D with
  | nil =>
    intro R R' h k
    injection h with h1
    subst h1
    rw [List.count_nil, jsAddCount_zero]
  | cons k0 D' ih =>
    intro R R' h k
    unfold applyIncs at h
    cases ha : applyInc R k0 with
    | none => rw [ha] at h; cases h
    | some R1 =>
      rw [ha] at h
      obtain ⟨hself, hother⟩ := applyInc_counter R k0 R1 ha
      by_cases hk : k = k0
      · subst hk
        rw [ih R1 R' h k, hself, List.count_cons_self, jsAddCount_succ]
      · rw [ih R1 R' h k, hother k hk, List.count_cons_of_ne hk]

theorem canInc_iff_applyInc (R : Report) (k : IncKey) :
    canInc R k ↔ ∃ R', applyInc R k = some R' := by
  unfold canInc applyInc
  cases hp : alookup R k.path with
  | none => simp
  | some st =>
    simp only []
    cases k with
    | l p n => simp [canIncSt]
    | b p id alt =>
      show ((alookup st.b id).isSome = true) ↔ _
      cases hb : alookup st.b id with
      | none => simp [hb]
      | some inner => simp [hb]
    | f p id => simp [canIncSt]
    | s p id => simp [canIncSt]

/-- A successful increment leaves the report's key shape unchanged: the
same path entries and the same `b` rows exist before and after (`aset`
overwrites an existing entry, and `jsIncAt` only touches counter cells). -/
theorem applyInc_shape (R : Report) (k0 : IncKey) (R1 : Report)
    (h : applyInc R k0 = some R1) :
    ∀ k, canInc R1 k ↔ canInc R k := by
  unfold applyInc at h
  cases hp : alookup R k0.path with
  | none => rw [hp] at h; cases h
  | some st =>
    rw [hp] at h
    simp only [] at h
    have hmain : ∃ st' : PathStats, R1 = aset R k0.path st' ∧
        ∀ id, (alookup st'.b id).isSome = (alookup st.b id).isSome := by
      cases k0 with
      | l p n =>
        simp only [] at h
        injection h with h1
        exact ⟨_, h1.symm, fun id => rfl⟩
      | b p id0 alt0 =>
        simp only [] at h
        cases hb : alookup st.b id0 with
        | none => rw [hb] at h; cases h
        | some inner =>
          rw [hb] at h
          simp only [] at h
          injection h with h1
          refine ⟨_, h1.symm, fun id => ?_⟩
          show (alookup (aset st.b id0 (jsIncAt inner alt0)) id).isSome = _
          by_cases hid : id = id0
          · subst hid
            rw [alookup_aset_self, hb]
            rfl
          · rw [alookup_aset_ne st.b id0 id _ hid]
      | f p id =>
        simp only [] at h
        injection h with h1
        exact ⟨_, h1.symm, fun id => rfl⟩
      | s p id =>
        simp only [] at h
        injection h with h1
        exact ⟨_, h1.symm, fun id => rfl⟩
    obtain ⟨st', hR1, hbsame⟩ := hmain
    subst hR1
    intro k
    unfold canInc
    by_cases hpp : k.path = k0.path
    · rw [hpp, alookup_aset_self, hp]
      simp only []
      cases k with
      | l p n => exact Iff.rfl
      | b p id alt =>
        show ((alookup st'.b id).isSome = true) ↔ ((alookup st.b id).isSome = true)
        rw [hbsame id]
      | f p id => exact Iff.rfl
      | s p id => exact Iff.rfl
    · rw [alookup_aset_ne R k0.path k.path st' hpp]

theorem applyIncs_shape (D : List IncKey) : ∀ R R', applyIncs R D = some R' →
    ∀ k, canInc R' k ↔ canInc R k := by
  induction D with
  | nil =>
    intro R R' h k
    injection h with h1
    subst h1
    exact Iff.rfl
  | cons k0 D' ih =>
    intro R R' h k
    unfold applyIncs at h
    cases ha : applyInc R k0 with
    | none => rw [ha] at h; cases h
    | some R1 =>
      rw [ha] at h
      exact (ih R1 R' h k).trans (applyInc_shape R k0 R1 ha k)

/-- A list of increments that succeeded once succeeds again on any report
with at least the same key shape — in particular on the report the first
run produced. -/
theorem applyIncs_again (D : List IncKey) : ∀ R R' R2, applyIncs R D = some R' →
    (∀ k, canInc R k → canInc R2 k) →
    ∃ R2', applyIncs R2 D = some R2' := by
  induction D with
  | nil =>
    intro R R' R2 _ _
    exact ⟨R2, rfl⟩
  | cons k0 D' ih =>
    intro R R' R2 h hsh
    unfold applyIncs at h
    cases ha : applyInc R k0 with
    | none => rw [ha] at h; cases h
    | some R1 =>
      rw [ha] at h
      have hc0 : canInc R k0 := (canInc_iff_applyInc R k0).mpr ⟨R1, ha⟩
      obtain ⟨R21, ha2⟩ := (canInc_iff_applyInc R2 k0).mp (hsh k0 hc0)
      obtain ⟨R2', happ2⟩ := ih R1 R' R21 h (fun k hk =>
        (applyInc_shape R2 k0 R21 ha2 k).mpr
          (hsh k ((applyInc_shape R k0 R1 ha k).mp hk)))
      refine ⟨R2', ?_⟩
      show applyIncs R2 (k0 :: D') = some R2'
      unfold applyIncs
      rw [ha2]
      exact happ2

theorem applyIncs_append (D1 D2 : List IncKey) : ∀ R : Report,
    applyIncs R (D1 ++ D2) =
      (match applyIncs R D1 with
       | none => none
       | some R1 => applyIncs R1 D2) := by
  induction D1 with
  | nil => intro R; rfl
  | cons k0 D1' ih =>
    intro R
    show applyIncs R (k0 :: (D1' ++ D2)) = _
    have hl : applyIncs R (k0 :: (D1' ++ D2)) =
        (match applyInc R k0 with
         | none => none
         | some R1 => applyIncs R1 (D1' ++ D2)) := rfl
    have hr : applyIncs R (k0 :: D1') =
        (match applyInc R k0 with
         | none => none
         | some R1 => applyIncs R1 D1') := rfl
    rw [hl, hr]
    cases ha : applyInc R k0 with
    | none => rfl
    | some R1 =>
      simp only []
      rw [ih R1]

theorem applyIncsList_eq_flatten (DS : List (List IncKey)) : ∀ R : Report,
    applyIncsList R DS = applyIncs R DS.flatten := by
  induction DS with
  | nil => intro R; rfl
  | cons D DS' ih =>
    intro R
    show applyIncsList R (D :: DS') = applyIncs R (D ++ DS'.flatten)
    rw [applyIncs_append]
    unfold applyIncsList
    cases ha : applyIncs R D with
    | none => rfl
    | some R1 => exact ih R1

theorem fresh_lookup (cov : CovTables) (p : List Char) :
    alookup (freshReport cov) p = (alookup cov.pathToSyn p).map (mkStats p) := by
  unfold freshReport
  exact alookup_map_val (fun q syn => mkStats q syn) cov.pathToSyn p

theorem fresh_zero_or_none (cov : CovTables) (k : IncKey) :
    counterAt (freshReport cov) k = none ∨
    counterAt (freshReport cov) k = some (some 0) := by
  rw [counterAt_def, fresh_lookup]
  cases hsyn : alookup cov.pathToSyn k.path with
  | none => left; rfl
  | some syn =>
    simp only [Option.map_some']
    have hgoal : statCounter (mkStats k.path syn) k = none ∨
        statCounter (mkStats k.path syn) k = some (some 0) := by
      cases k with
      | l p n =>
        have hval : statCounter (mkStats (IncKey.l p n).path syn) (IncKey.l p n) =
            alookup ((List.range syn.lines.length).map
              (fun i => (i, (some 0 : Counter)))) n := rfl
        rw [hval, alookup_range_const]
        by_cases hlt : n < syn.lines.length
        · right; rw [if_pos hlt]
        · left; rw [if_neg hlt]
      | b p id alt =>
        have hb : alookup (mkStats (IncKey.b p id alt).path syn).b id =
            (alookup syn.branchMap id).map (fun e =>
              (List.range e.locations.length).map (fun j => (j, (some 0 : Counter)))) := by
          show alookup (syn.branchMap.map _) id = _
          exact alookup_map_val
            (fun _ e => (List.range e.locations.length).map (fun j => (j, (some 0 : Counter))))
            syn.branchMap id
        have hval : statCounter (mkStats (IncKey.b p id alt).path syn) (IncKey.b p id alt) =
            (match alookup (mkStats (IncKey.b p id alt).path syn).b id with
             | none => none
             | some inner => alookup inner alt) := rfl
        rw [hval, hb]
        cases alookup syn.branchMap id with
        | none => left; rfl
        | some e =>
          simp only [Option.map_some']
          rw [alookup_range_const]
          by_cases hlt : alt < e.locations.length
          · right; rw [if_pos hlt]
          · left; rw [if_neg hlt]
      | f p id =>
        have hf : alookup (mkStats (IncKey.f p id).path syn).f id =
            (alookup syn.fnMap id).map (fun _ => (some 0 : Counter)) := by
          show alookup (syn.fnMap.map _) id = _
          exact alookup_map_val (fun _ _ => (some 0 : Counter)) syn.fnMap id
        have hval : statCounter (mkStats (IncKey.f p id).path syn) (IncKey.f p id) =
            alookup (mkStats (IncKey.f p id).path syn).f id := rfl
        rw [hval, hf]
        cases alookup syn.fnMap id with
        | none => left; rfl
        | some e => right; rfl
      | s p id =>
        have hs : alookup (mkStats (IncKey.s p id).path syn).s id =
            (alookup syn.statementMap id).map (fun _ => (some 0 : Counter)) := by
          show alookup (syn.statementMap.map _) id = _
          exact alookup_map_val (fun _ _ => (some 0 : Counter)) syn.statementMap id
        have hval : statCounter (mkStats (IncKey.s p id).path syn) (IncKey.s p id) =
            alookup (mkStats (IncKey.s p id).path syn).s id := rfl
        rw [hval, hs]
        cases alookup syn.statementMap id with
        | none => left; rfl
        | some e => right; rfl
    exact hgoal

/-- Claim C6 (confirmed): counters never decrease across `report` — a
numeric counter in the input report can only grow, and a `NaN` counter
(created by JS `++` on a cell outside the zero-initialised arrays, e.g.
the final-line overflow of the `l` array) stays `NaN` and is never
removed; and running `report` twice with the same logs starting from a
fresh zero-initialised report doubles every counter of a single run —
numeric counters exactly double, and a `NaN` counter stays `NaN` (in JS
`2 * NaN` is `NaN`).  The one hypothesis is the structural invariant of
the `Sources` state, which the JS constructor establishes; the syntax
tables are arbitrary. -/
theorem c6_monotone_and_double (cov : CovTables) (S : Sources)
    (hinv : invS S = true) :
    (∀ logs R R' S', reportFn cov logs R S = some (R', S') →
       ∀ k, (∀ v, counterAt R k = some (some v) →
               ∃ w, counterAt R' k = some (some w) ∧ v ≤ w) ∧
            (counterAt R k = some none → counterAt R' k = some none)) ∧
    (∀ logs R1 S1, reportFn cov logs (freshReport cov) S = some (R1, S1) →
       ∃ R2, reportFn cov logs R1 S1 = some (R2, S1) ∧
         ∀ k, counterAt R2 k =
           (counterAt R1 k).map (Option.map (fun n => 2 * n))) := by
  constructor
  · intro logs R R' S' h k
    obtain ⟨DS, htr, happ⟩ := reportFn_to_trace cov logs R S R' S' h
    rw [applyIncsList_eq_flatten] at happ
    constructor
    · intro v hv
      exact applyIncs_mono DS.flatten R R' happ k v hv
    · intro hnan
      rw [applyIncs_jscounts DS.flatten R R' happ k, hnan, jsAddCount_nan]
  · intro logs R1 S1 h
    obtain ⟨DS, htr, happ⟩ := reportFn_to_trace cov logs (freshReport cov) S R1 S1 h
    obtain ⟨hext, hinv1, htr2⟩ := incsTrace_settled cov logs S DS S1 hinv htr
    rw [applyIncsList_eq_flatten] at happ
    obtain ⟨R2, happ2⟩ := applyIncs_again DS.flatten (freshReport cov) R1 R1 happ
      (fun k hk => (applyIncs_shape DS.flatten (freshReport cov) R1 happ k).mpr hk)
    refine ⟨R2, ?_, ?_⟩
    · refine trace_to_reportFn cov logs R1 S1 DS S1 R2 htr2 ?_
      rw [applyIncsList_eq_flatten]
      exact happ2
    · intro k
      rw [applyIncs_jscounts DS.flatten R1 R2 happ2 k,
        applyIncs_jscounts DS.flatten (freshReport cov) R1 happ k]
      rcases fresh_zero_or_none cov k with hz | hz <;> rw [hz]
      · by_cases hc : DS.flatten.count k = 0
        · rw [hc, jsAddCount_zero, jsAddCount_zero]
          rfl
        · rw [jsAddCount_absent _ hc, jsAddCount_nan]
          rfl
      · by_cases hc : DS.flatten.count k = 0
        · rw [hc, jsAddCount_zero, jsAddCount_zero]
          rfl
        · rw [jsAddCount_num 0 _ hc, jsAddCount_num (0 + DS.flatten.count k) _ hc]
          simp only [Option.map_some']
          have harith : 0 + DS.flatten.count k + DS.flatten.count k =
              2 * (0 + DS.flatten.count k) := by omega
          rw [harith]

/-- Witness for C6 at the concrete one-log instance: the second run on the
accumulated report doubles the counters of the first run. -/
theorem c6_witness :
    ∃ R2, reportFn exCov [exJumpLog]
        ((reportFn exCov [exJumpLog] (freshReport exCov) exSources).getD
          (freshReport exCov, exSources)).1
        ((reportFn exCov [exJumpLog] (freshReport exCov) exSources).getD
          (freshReport exCov, exSources)).2 = some (R2,
        ((reportFn exCov [exJumpLog] (freshReport exCov) exSources).getD
          (freshReport exCov, exSources)).2) ∧
      ∀ k, counterAt R2 k =
        (counterAt ((reportFn exCov [exJumpLog] (freshReport exCov) exSources).getD
          (freshReport exCov, exSources)).1 k).map (Option.map (fun n => 2 * n)) :=
  (c6_monotone_and_double exCov exSources (by decide)).2
    [exJumpLog]
    ((reportFn exCov [exJumpLog] (freshReport exCov) exSources).getD
      (freshReport exCov, exSources)).1
    ((reportFn exCov [exJumpLog] (freshReport exCov) exSources).getD
      (freshReport exCov, exSources)).2
    (by rfl)
